import Mathlib

/-!
Shallow embedding of the network-generation core of `network-agents.py`:
the three linking-strategy generators (`generate_random_graph`,
`generate_preferential_attachment_graph`, `generate_homophily_graph`) and
the configuration dispatch in `main`.  Python's pseudo-random primitives
are modelled by an explicit stream of rational draws in `[0, 1)`; machine
floats are modelled as rationals.  NetworkX `DiGraph` is modelled as a
node list plus an association list from directed edges to an optional
weight (`none` models both an absent `weight` attribute and a `weight`
attribute set to Python `None`).
-/

namespace NetworkAgents

/-- State of the pseudo-random source: an infinite stream of unit-interval
draws `f` together with the index `i` of the next draw.  One Python call to
`random.random()`, `random.randrange(n)` or `random.uniform(0, b)` consumes
exactly one draw. -/
structure RState where
  f : ℕ → ℚ
  i : ℕ

/-- Model of `random.random()`: return the next unit draw. -/
def RState.draw (s : RState) : ℚ × RState :=
  (s.f s.i, ⟨s.f, s.i + 1⟩)

/-- Model of `random.randrange(n)`: a uniform integer in `[0, n)`, realised
as `⌊u * n⌋` for the next unit draw `u` (the `% n` is the identity on valid
draws and merely keeps the function total on arbitrary streams). -/
def RState.randrange (s : RState) (n : ℕ) : ℕ × RState :=
  ((Rat.floor (s.f s.i * n)).toNat % n, ⟨s.f, s.i + 1⟩)

/-- Model of `random.uniform(0, b)`: `0 + (b - 0) * random()`. -/
def RState.uniformTo (s : RState) (b : ℚ) : ℚ × RState :=
  (s.f s.i * b, ⟨s.f, s.i + 1⟩)

/-- A stream is valid when every draw lies in `[0, 1)`, the documented
range of `random.random()`. -/
def ValidStream (f : ℕ → ℚ) : Prop := ∀ k, 0 ≤ f k ∧ f k < 1

/-- Directed graph: node list in insertion order and an association list
from ordered pairs to an optional weight, in edge-insertion order. -/
structure DiGraph where
  nodes : List ℕ
  edges : List ((ℕ × ℕ) × Option ℚ)
deriving DecidableEq

/-- Look up the stored weight of a directed edge (`some w` when the edge
is present carrying `w`, `none` when the edge is absent). -/
def lookupW : List ((ℕ × ℕ) × Option ℚ) → ℕ × ℕ → Option (Option ℚ)
  | [], _ => none
  | (k, w) :: rest, e => if k = e then some w else lookupW rest e

/-- Set (or insert at the end) the weight stored for a directed edge;
models NetworkX `add_edge` overwriting the `weight` attribute. -/
def setW : List ((ℕ × ℕ) × Option ℚ) → ℕ × ℕ → Option ℚ → List ((ℕ × ℕ) × Option ℚ)
  | [], e, w => [(e, w)]
  | (k, w0) :: rest, e, w => if k = e then (k, w) :: rest else (k, w0) :: setW rest e w

/-- Apply a function to the weight stored for a directed edge, when present;
models `G[i][j]['weight'] += 1`. -/
def mapW : List ((ℕ × ℕ) × Option ℚ) → ℕ × ℕ → (Option ℚ → Option ℚ) → List ((ℕ × ℕ) × Option ℚ)
  | [], _, _ => []
  | (k, w0) :: rest, e, g => if k = e then (k, g w0) :: rest else (k, w0) :: mapW rest e g

/-- Append a node if absent (Python set-like node container, insertion order). -/
def insertNode (l : List ℕ) (v : ℕ) : List ℕ :=
  if v ∈ l then l else l ++ [v]

/-- Model of `G.has_edge(u, v)`. -/
def DiGraph.hasEdge (G : DiGraph) (u v : ℕ) : Bool :=
  (lookupW G.edges (u, v)).isSome

/-- Model of `G.add_edge(u, v, weight=w)`: missing endpoints are added as
nodes and the weight attribute is set (overwriting any previous one). -/
def DiGraph.addEdge (G : DiGraph) (u v : ℕ) (w : Option ℚ) : DiGraph :=
  ⟨insertNode (insertNode G.nodes u) v, setW G.edges (u, v) w⟩

/-- Model of `G.add_node(v)` (idempotent). -/
def DiGraph.addNode (G : DiGraph) (v : ℕ) : DiGraph :=
  ⟨insertNode G.nodes v, G.edges⟩

/-- Model of `G[i][j]['weight'] += 1` on an existing weighted edge. -/
def DiGraph.incWeight (G : DiGraph) (u v : ℕ) : DiGraph :=
  ⟨G.nodes, mapW G.edges (u, v) (Option.map (· + 1))⟩

/-- Model of `G.degree()[v]` for a NetworkX `DiGraph`: in-degree plus
out-degree (a self-loop would count twice; generated graphs have none). -/
def DiGraph.degree (G : DiGraph) (v : ℕ) : ℕ :=
  (G.edges.filter (fun e => e.1.1 == v)).length +
    (G.edges.filter (fun e => e.1.2 == v)).length

/-- Model of `G.number_of_nodes()`. -/
def DiGraph.nodeCount (G : DiGraph) : ℕ := G.nodes.length

/-- Model of `G.number_of_edges()`. -/
def DiGraph.edgeCount (G : DiGraph) : ℕ := G.edges.length

/-- No directed edge is a self-loop. -/
def NoSelfLoop (G : DiGraph) : Prop := ∀ e ∈ G.edges, e.1.1 ≠ e.1.2

/-- Every stored edge satisfies `Q` of its endpoints and weight. -/
def InvE (Q : ℕ × ℕ → Option ℚ → Prop) (G : DiGraph) : Prop :=
  ∀ e ∈ G.edges, Q e.1 e.2

/-! ### Random (Erdős–Rényi style) generator, lines 5–42 of the source -/

/-- One dynamic-mode trial of `generate_random_graph` for node `i`
(lines 13–28): draw `r`; when `r < p` draw a target `j`; skip `j = i`;
increment the weight of an existing edge (weighted mode only) or create
the edge and count it. -/
def randTrialDyn (n : ℕ) (p : ℚ) (ew : Bool) (acc : DiGraph × ℕ × RState) (i : ℕ) :
    DiGraph × ℕ × RState :=
  let (G, cnt, s) := acc
  let (r, s) := s.draw
  if r < p then
    let (j, s) := s.randrange n
    if j = i then (G, cnt, s)
    else if G.hasEdge i j then
      (if ew then G.incWeight i j else G, cnt, s)
    else
      (G.addEdge i j (if ew then some 1 else none), cnt + 1, s)
  else (G, cnt, s)

/-- One dynamic step of `generate_random_graph` (the `for i in range(num_nodes)`
loop with `edges_added` reset to 0). -/
def randStepDyn (n : ℕ) (p : ℚ) (ew : Bool) (G : DiGraph) (s : RState) :
    DiGraph × ℕ × RState :=
  (List.range n).foldl (randTrialDyn n p ew) (G, 0, s)

/-- The `for t in range(1, time_steps+1)` loop of `generate_random_graph`
(one iteration per remaining time step); the per-step `edges_added` count
is printed and discarded. -/
def randDynLoop (n : ℕ) (p : ℚ) (ew : Bool) : ℕ → DiGraph × RState → DiGraph × RState
  | 0, Gs => Gs
  | ts + 1, Gs =>
    let r := randStepDyn n p ew Gs.1 Gs.2
    randDynLoop n p ew ts (r.1, r.2.2)

/-- Inner `j`-loop body of static `generate_random_graph` (lines 32–40). -/
def randStaticInner (p : ℚ) (ew : Bool) (i : ℕ) (acc : DiGraph × RState) (j : ℕ) :
    DiGraph × RState :=
  let (G, s) := acc
  if i = j then (G, s)
  else
    let (r, s) := s.draw
    if r < p then
      if ew then
        let (w, s) := s.draw
        (G.addEdge i j (some w), s)
      else (G.addEdge i j none, s)
    else (G, s)

/-- Outer `i`-loop body of static `generate_random_graph`. -/
def randStaticRow (n : ℕ) (p : ℚ) (ew : Bool) (acc : DiGraph × RState) (i : ℕ) :
    DiGraph × RState :=
  (List.range n).foldl (randStaticInner p ew i) acc

/-- Model of `generate_random_graph(num_nodes, dynamic, time_steps, p,
edge_weights)` (source lines 5–42), threading the random state. -/
def generate_random_graph (n : ℕ) (dynamic : Bool) (time_steps : ℕ) (p : ℚ)
    (ew : Bool) (s : RState) : DiGraph × RState :=
  let G : DiGraph := ⟨List.range n, []⟩
  if dynamic then randDynLoop n p ew time_steps (G, s)
  else (List.range n).foldl (randStaticRow n p ew) (G, s)

/-! ### Preferential-attachment generator, lines 44–88 of the source -/

/-- Seed clique of dynamic preferential attachment (lines 51–54): every
ordered pair inside `range(initial_nodes)` gets an edge of weight `1`
(weighted) or `None` (unweighted). -/
def cliqueLoop (ew : Bool) (init : ℕ) (G : DiGraph) : DiGraph :=
  (List.range init).foldl
    (fun G u =>
      (List.range init).foldl
        (fun G v => if u ≠ v then G.addEdge u v (if ew then some 1 else none) else G)
        G)
    G

/-- Cumulative-degree scan of lines 65–71: walk the degree list in node
order accumulating degrees; the first node whose running total reaches `r`
is the candidate. -/
def scanSelect (r : ℚ) : ℚ → List (ℕ × ℕ) → Option ℕ
  | _, [] => none
  | cum, (v, d) :: rest =>
    if r ≤ cum + (d : ℚ) then some v else scanSelect r (cum + (d : ℚ)) rest

/-- The `while len(targets) < edges_per_step` loop of lines 63–71, with an
explicit fuel bound on the number of draws (the Python loop can diverge on
adversarial streams; `none` models non-termination). -/
def selectTargets (m t : ℕ) (degs : List (ℕ × ℕ)) (total : ℚ) :
    ℕ → List ℕ → RState → Option (List ℕ × RState)
  | fuel, tgts, s =>
    if m ≤ tgts.length then some (tgts, s)
    else
      match fuel with
      | 0 => none
      | fuel + 1 =>
        let (r, s) := s.uniformTo total
        match scanSelect r 0 degs with
        | some cand =>
          if cand ≠ t then selectTargets m t degs total fuel (insertNode tgts cand) s
          else selectTargets m t degs total fuel tgts s
        | none => selectTargets m t degs total fuel tgts s

/-- Arrival of one new node `t` in dynamic preferential attachment
(lines 56–78): add the node, recompute the degree table, select
`edges_per_step` distinct targets, and link `t` to each. -/
def paArrival (m : ℕ) (ew : Bool) (fuel : ℕ) (acc : Option (DiGraph × RState)) (t : ℕ) :
    Option (DiGraph × RState) :=
  match acc with
  | none => none
  | some (G, s) =>
    let G := G.addNode t
    let degs := G.nodes.map (fun v => (v, G.degree v))
    let total : ℚ := (degs.map (fun x => (x.2 : ℚ))).sum
    match selectTargets m t degs total fuel [] s with
    | none => none
    | some (tgts, s) =>
      some (tgts.foldl (fun G tgt => G.addEdge t tgt (if ew then some 1 else none)) G, s)

/-- Dynamic branch of `generate_preferential_attachment_graph`
(lines 47–78): seed clique on `edges_per_step + 1` nodes, then one arrival
per node `t` in `[initial_nodes, num_nodes)`. -/
def pa_dynamic (n m : ℕ) (ew : Bool) (fuel : ℕ) (s : RState) :
    Option (DiGraph × RState) :=
  let init := m + 1
  let G : DiGraph := ⟨List.range init, []⟩
  let G := cliqueLoop ew init G
  (List.range' init (n - init)).foldl (paArrival m ew fuel) (some (G, s))

/-- Static branch of `generate_preferential_attachment_graph`
(lines 80–87).  The Barabási–Albert base network comes from the external
NetworkX library; it is modelled abstractly as its undirected edge list
`ba` over nodes `range n` (its documented well-formedness — endpoints
below `n`, no self-loops — appears as hypotheses of the theorems).  For
each base edge both directions are added, each with a fresh uniform draw
as weight in weighted mode and `None` otherwise. -/
def pa_static (n : ℕ) (ba : List (ℕ × ℕ)) (ew : Bool) (s : RState) :
    DiGraph × RState :=
  let G : DiGraph := ⟨List.range n, []⟩
  ba.foldl
    (fun acc e =>
      let (G, s) := acc
      if ew then
        let (w1, s) := s.draw
        let G := G.addEdge e.1 e.2 (some w1)
        let (w2, s) := s.draw
        (G.addEdge e.2 e.1 (some w2), s)
      else ((G.addEdge e.1 e.2 none).addEdge e.2 e.1 none, s))
    (G, s)

/-- Model of `generate_preferential_attachment_graph(num_nodes, dynamic,
time_steps, edges_per_step, edge_weights)` (lines 44–88).  The
`time_steps` parameter is kept because the source accepts it, although
its body never reads it.  `ba` abstracts the external NetworkX
Barabási–Albert graph used by the static branch and `fuel` bounds the
dynamic target-selection loop. -/
def generate_preferential_attachment_graph (n : ℕ) (dynamic : Bool)
    (time_steps : ℕ) (m : ℕ) (ew : Bool) (ba : List (ℕ × ℕ)) (fuel : ℕ)
    (s : RState) : Option (DiGraph × RState) :=
  if dynamic then pa_dynamic n m ew fuel s
  else some (pa_static n ba ew s)

/-! ### Homophily generator, lines 90–136 of the source -/

/-- Group assignment of line 95: `group(i) = i % homophily_groups`. -/
def group (g : ℕ) (i : ℕ) : ℕ := i % g

/-- One dynamic-mode trial of `generate_homophily_graph` for node `i`
(lines 101–121): draw a target `j` first, skip `j = i`, then run the
Bernoulli test with `p_in` or `p_out` according to group equality. -/
def homTrialDyn (n g : ℕ) (pin pout : ℚ) (ew : Bool)
    (acc : DiGraph × ℕ × RState) (i : ℕ) : DiGraph × ℕ × RState :=
  let (G, cnt, s) := acc
  let (j, s) := s.randrange n
  if j = i then (G, cnt, s)
  else if group g i = group g j then
    let (r, s) := s.draw
    if r < pin then
      if G.hasEdge i j then (if ew then G.incWeight i j else G, cnt, s)
      else (G.addEdge i j (if ew then some 1 else none), cnt + 1, s)
    else (G, cnt, s)
  else
    let (r, s) := s.draw
    if r < pout then
      if G.hasEdge i j then (if ew then G.incWeight i j else G, cnt, s)
      else (G.addEdge i j (if ew then some 1 else none), cnt + 1, s)
    else (G, cnt, s)

/-- One dynamic step of `generate_homophily_graph`. -/
def homStepDyn (n g : ℕ) (pin pout : ℚ) (ew : Bool) (G : DiGraph) (s : RState) :
    DiGraph × ℕ × RState :=
  (List.range n).foldl (homTrialDyn n g pin pout ew) (G, 0, s)

/-- The `for t in range(1, time_steps+1)` loop of `generate_homophily_graph`
(one iteration per remaining time step). -/
def homDynLoop (n g : ℕ) (pin pout : ℚ) (ew : Bool) :
    ℕ → DiGraph × RState → DiGraph × RState
  | 0, Gs => Gs
  | ts + 1, Gs =>
    let r := homStepDyn n g pin pout ew Gs.1 Gs.2
    homDynLoop n g pin pout ew ts (r.1, r.2.2)

/-- Inner `j`-loop body of static `generate_homophily_graph`
(lines 125–134). -/
def homStaticInner (g : ℕ) (pin pout : ℚ) (ew : Bool) (i : ℕ)
    (acc : DiGraph × RState) (j : ℕ) : DiGraph × RState :=
  let (G, s) := acc
  if i = j then (G, s)
  else if group g i = group g j then
    let (r, s) := s.draw
    if r < pin then
      if ew then
        let (w, s) := s.draw
        (G.addEdge i j (some w), s)
      else (G.addEdge i j none, s)
    else (G, s)
  else
    let (r, s) := s.draw
    if r < pout then
      if ew then
        let (w, s) := s.draw
        (G.addEdge i j (some w), s)
      else (G.addEdge i j none, s)
    else (G, s)

/-- Outer `i`-loop body of static `generate_homophily_graph`. -/
def homStaticRow (n g : ℕ) (pin pout : ℚ) (ew : Bool) (acc : DiGraph × RState)
    (i : ℕ) : DiGraph × RState :=
  (List.range n).foldl (homStaticInner g pin pout ew i) acc

/-- Model of `generate_homophily_graph(num_nodes, dynamic, time_steps,
homophily_groups, p_in, p_out, edge_weights)` (lines 90–136).  The
per-node `group` attribute is the function `group g`; it is determined by
the node id and `homophily_groups` alone. -/
def generate_homophily_graph (n : ℕ) (dynamic : Bool) (time_steps : ℕ)
    (g : ℕ) (pin pout : ℚ) (ew : Bool) (s : RState) : DiGraph × RState :=
  let G : DiGraph := ⟨List.range n, []⟩
  if dynamic then homDynLoop n g pin pout ew time_steps (G, s)
  else (List.range n).foldl (homStaticRow n g pin pout ew) (G, s)

/-! ### Configuration and dispatch, lines 138–176 of the source -/

/-- The recognized configuration options of `main`, each `none` when the
key is absent from the JSON mapping.  `num_agents` is an integer because
the source performs no validation and a negative value flows into
`range(num_agents)` unchecked. -/
structure Config where
  num_agents : Option ℤ := none
  linking_strategy : Option String := none
  strategy : Option String := none
  time_steps : Option ℕ := none
  dynamic : Option Bool := none
  edge_weights : Option Bool := none
  output_format : Option String := none
  p : Option ℚ := none
  edges_per_step : Option ℕ := none
  homophily_groups : Option ℕ := none
  p_in : Option ℚ := none
  p_out : Option ℚ := none

/-- Model of Python `str.lower()`, written on the character list (it
agrees with `String.toLower`, whose `String.mapAux` does not reduce well
inside the kernel). -/
def strLower (x : String) : String := String.mk (x.data.map Char.toLower)

/-- Line 141 of the source:
`config.get("linking_strategy", config.get("strategy", "random"))`. -/
def resolveStrategy (cfg : Config) : String :=
  cfg.linking_strategy.getD (cfg.strategy.getD "random")

/-- Model of `main(config)` (lines 138–176): parse options, dispatch on
the resolved strategy, and on success return the finished graph together
with the name of the file it is written to.  `Except.error` models a
raised exception (`ValueError` for an unknown strategy); an error result
carries no graph and writes no file.  `range(num_agents)` on a negative
integer is empty, hence the `Int.toNat` conversion. -/
def main (cfg : Config) (ba : List (ℕ × ℕ)) (fuel : ℕ) (s : RState) :
    Except String (DiGraph × String) :=
  let n : ℕ := (cfg.num_agents.getD 100).toNat
  let strat := resolveStrategy cfg
  let ts := cfg.time_steps.getD 1
  let dyn := cfg.dynamic.getD false
  let ew := cfg.edge_weights.getD false
  let fmt := strLower (cfg.output_format.getD "graphml")
  let gres : Except String DiGraph :=
    if strat = "random" then
      Except.ok (generate_random_graph n dyn ts (cfg.p.getD (1 / 10)) ew s).1
    else if strat = "preferential_attachment" ∨ strat = "preferential" then
      match generate_preferential_attachment_graph n dyn ts
          (cfg.edges_per_step.getD 1) ew ba fuel s with
      | some Gs => Except.ok Gs.1
      | none => Except.error "target selection did not terminate"
    else if strat = "homophily" then
      Except.ok (generate_homophily_graph n dyn ts (cfg.homophily_groups.getD 2)
        (cfg.p_in.getD (1 / 10)) (cfg.p_out.getD (1 / 100)) ew s).1
    else Except.error ("Unknown linking_strategy: " ++ strat)
  match gres with
  | Except.error e => Except.error e
  | Except.ok G =>
    if fmt = "graphml" ∨ fmt = "gexf" ∨ fmt = "png" then
      Except.ok (G, "network." ++ fmt)
    else Except.ok (G, "network.graphml")

/-! ### General helper lemmas -/

lemma foldl_pres {α σ : Type _} (P : σ → Prop) (f : σ → α → σ) :
    ∀ l : List α, (∀ s a, a ∈ l → P s → P (f s a)) → ∀ s, P s → P (l.foldl f s) := by
  intro l
  induction l with
  | nil => intro _ s hs; simpa using hs
  | cons a l ih =>
    intro h s hs
    simp only [List.foldl_cons]
    exact ih (fun s b hb => h s b (List.mem_cons_of_mem a hb)) _
      (h s a (List.mem_cons_self a l) hs)

lemma mem_setW_of {e : ℕ × ℕ} {w : Option ℚ} :
    ∀ (l : List ((ℕ × ℕ) × Option ℚ)) (x : (ℕ × ℕ) × Option ℚ),
      x ∈ setW l e w → x = (e, w) ∨ x ∈ l := by
  intro l
  induction l with
  | nil => intro x hx; simpa [setW] using hx
  | cons h t ih =>
    rcases h with ⟨k, w0⟩
    intro x hx
    by_cases hk : k = e
    · subst hk
      simp only [setW, if_pos rfl, List.mem_cons, if_true, eq_self_iff_true, ite_true] at hx
      rcases hx with hx | hx
      · exact Or.inl hx
      · exact Or.inr (List.mem_cons_of_mem _ hx)
    · simp only [setW, if_neg hk, List.mem_cons] at hx
      rcases hx with hx | hx
      · exact Or.inr (by simp [hx])
      · rcases ih x hx with h1 | h1
        · exact Or.inl h1
        · exact Or.inr (List.mem_cons_of_mem _ h1)

lemma mem_mapW_of {e : ℕ × ℕ} {g : Option ℚ → Option ℚ} :
    ∀ (l : List ((ℕ × ℕ) × Option ℚ)) (x : (ℕ × ℕ) × Option ℚ),
      x ∈ mapW l e g → x ∈ l ∨ ∃ w0, (e, w0) ∈ l ∧ x = (e, g w0) := by
  intro l
  induction l with
  | nil => intro x hx; simpa [mapW] using hx
  | cons h t ih =>
    rcases h with ⟨k, w0⟩
    intro x hx
    by_cases hk : k = e
    · subst hk
      simp only [mapW, if_pos rfl, List.mem_cons, if_true, eq_self_iff_true, ite_true] at hx
      rcases hx with hx | hx
      · exact Or.inr ⟨w0, by simp, hx⟩
      · exact Or.inl (List.mem_cons_of_mem _ hx)
    · simp only [mapW, if_neg hk, List.mem_cons] at hx
      rcases hx with hx | hx
      · exact Or.inl (by simp [hx])
      · rcases ih x hx with h1 | h1
        · exact Or.inl (List.mem_cons_of_mem _ h1)
        · rcases h1 with ⟨w1, hw1, hxw⟩
          exact Or.inr ⟨w1, List.mem_cons_of_mem _ hw1, hxw⟩

lemma lookupW_setW (l : List ((ℕ × ℕ) × Option ℚ)) (e e2 : ℕ × ℕ) (w : Option ℚ) :
    lookupW (setW l e w) e2 = if e = e2 then some w else lookupW l e2 := by
  induction l with
  | nil => simp [setW, lookupW]
  | cons h t ih =>
    rcases h with ⟨k, w0⟩
    by_cases hk : k = e
    · subst hk
      by_cases hk2 : k = e2
      · subst hk2; simp [setW, lookupW]
      · simp [setW, lookupW, hk2]
    · by_cases hk2 : k = e2
      · subst hk2
        have he2 : ¬e = k := fun h => hk h.symm
        simp [setW, lookupW, hk, he2]
      · simp [setW, lookupW, hk, hk2, ih]

lemma lookupW_mapW (l : List ((ℕ × ℕ) × Option ℚ)) (e e2 : ℕ × ℕ)
    (g : Option ℚ → Option ℚ) :
    lookupW (mapW l e g) e2 =
      if e = e2 then (lookupW l e2).map g else lookupW l e2 := by
  induction l with
  | nil => simp [mapW, lookupW]
  | cons h t ih =>
    rcases h with ⟨k, w0⟩
    by_cases hk : k = e
    · subst hk
      by_cases hk2 : k = e2
      · subst hk2; simp [mapW, lookupW]
      · simp [mapW, lookupW, hk2]
    · by_cases hk2 : k = e2
      · subst hk2
        have he2 : ¬e = k := fun h => hk h.symm
        simp [mapW, lookupW, hk, he2]
      · simp [mapW, lookupW, hk, hk2, ih]

lemma length_setW_absent {e : ℕ × ℕ} (w : Option ℚ) :
    ∀ l : List ((ℕ × ℕ) × Option ℚ), lookupW l e = none →
      (setW l e w).length = l.length + 1 := by
  intro l
  induction l with
  | nil => intro _; simp [setW]
  | cons h t ih =>
    rcases h with ⟨k, w0⟩
    intro he
    by_cases hk : k = e
    · subst hk; simp [lookupW] at he
    · simp only [lookupW, if_neg hk] at he
      simp [setW, hk, ih he]

lemma length_setW_present {e : ℕ × ℕ} (w : Option ℚ) :
    ∀ l : List ((ℕ × ℕ) × Option ℚ), (lookupW l e).isSome →
      (setW l e w).length = l.length := by
  intro l
  induction l with
  | nil => intro he; simp [lookupW] at he
  | cons h t ih =>
    rcases h with ⟨k, w0⟩
    intro he
    by_cases hk : k = e
    · subst hk; simp [setW]
    · simp only [lookupW, if_neg hk] at he
      simp [setW, hk, ih he]

lemma length_mapW (l : List ((ℕ × ℕ) × Option ℚ)) (e : ℕ × ℕ)
    (g : Option ℚ → Option ℚ) : (mapW l e g).length = l.length := by
  induction l with
  | nil => simp [mapW]
  | cons h t ih =>
    rcases h with ⟨k, w0⟩
    by_cases hk : k = e
    · subst hk; simp [mapW]
    · simp [mapW, hk, ih]

lemma InvE_addEdge {Q : ℕ × ℕ → Option ℚ → Prop} {G : DiGraph} {u v : ℕ}
    {w : Option ℚ} (hG : InvE Q G) (hQ : Q (u, v) w) :
    InvE Q (G.addEdge u v w) := by
  intro e he
  rcases mem_setW_of _ _ he with h | h
  · subst h; exact hQ
  · exact hG e h

lemma InvE_incWeight {Q : ℕ × ℕ → Option ℚ → Prop} {G : DiGraph} {u v : ℕ}
    (hG : InvE Q G)
    (hmap : ∀ k w, Q k w → Q k (Option.map (· + 1) w)) :
    InvE Q (G.incWeight u v) := by
  intro e he
  rcases mem_mapW_of _ _ he with h | h
  · exact hG e h
  · rcases h with ⟨w0, hw0, hew⟩
    subst hew
    exact hmap _ _ (hG _ hw0)

lemma insertNode_mem {l : List ℕ} {v : ℕ} (h : v ∈ l) : insertNode l v = l := by
  simp [insertNode, h]

lemma addEdge_nodes {G : DiGraph} {u v : ℕ} (hu : u ∈ G.nodes) (hv : v ∈ G.nodes)
    (w : Option ℚ) : (G.addEdge u v w).nodes = G.nodes := by
  simp [DiGraph.addEdge, insertNode_mem hu, insertNode_mem hv]

lemma incWeight_nodes (G : DiGraph) (u v : ℕ) :
    (G.incWeight u v).nodes = G.nodes := rfl

/-! ### Invariant preservation: random generator -/

lemma randTrialDyn_inv {Q : ℕ × ℕ → Option ℚ → Prop} {n : ℕ} {p : ℚ} {ew : Bool}
    (hnew : ∀ u v, u ≠ v → Q (u, v) (if ew then some 1 else none))
    (hmap : ∀ k w, Q k w → Q k (Option.map (· + 1) w)) :
    ∀ (G : DiGraph) (c : ℕ) (s : RState) (i : ℕ), InvE Q G →
      InvE Q (randTrialDyn n p ew (G, c, s) i).1 := by
  intro G c s i hG
  simp only [randTrialDyn, RState.draw, RState.randrange]
  split_ifs with h1 h2 h3 h4 h5
  · exact hG
  · exact InvE_incWeight hG hmap
  · exact hG
  · exact InvE_addEdge hG (by simpa [h5] using hnew i _ (fun h => h2 h.symm))
  · exact InvE_addEdge hG (by simpa [h5] using hnew i _ (fun h => h2 h.symm))
  · exact hG

lemma randStepDyn_inv {Q : ℕ × ℕ → Option ℚ → Prop} {n : ℕ} {p : ℚ} {ew : Bool}
    (hnew : ∀ u v, u ≠ v → Q (u, v) (if ew then some 1 else none))
    (hmap : ∀ k w, Q k w → Q k (Option.map (· + 1) w))
    (G : DiGraph) (s : RState) (hG : InvE Q G) :
    InvE Q (randStepDyn n p ew G s).1 := by
  have := foldl_pres (fun acc : DiGraph × ℕ × RState => InvE Q acc.1)
    (randTrialDyn n p ew) (List.range n)
    (fun acc a _ hacc => by
      rcases acc with ⟨G1, c1, s1⟩
      exact randTrialDyn_inv hnew hmap G1 c1 s1 a hacc)
    (G, 0, s) hG
  exact this

lemma randDynLoop_inv {Q : ℕ × ℕ → Option ℚ → Prop} {n : ℕ} {p : ℚ} {ew : Bool}
    (hnew : ∀ u v, u ≠ v → Q (u, v) (if ew then some 1 else none))
    (hmap : ∀ k w, Q k w → Q k (Option.map (· + 1) w)) :
    ∀ (ts : ℕ) (Gs : DiGraph × RState), InvE Q Gs.1 →
      InvE Q (randDynLoop n p ew ts Gs).1 := by
  intro ts
  induction ts with
  | zero => intro Gs h; exact h
  | succ t ih =>
    intro Gs h
    exact ih _ (randStepDyn_inv hnew hmap Gs.1 Gs.2 h)

lemma randStaticInner_inv {Q : ℕ × ℕ → Option ℚ → Prop} {p : ℚ} {ew : Bool}
    {f0 : ℕ → ℚ}
    (hnew : ∀ u v k1 k2, u ≠ v → f0 k1 < p →
      Q (u, v) (if ew then some (f0 k2) else none)) :
    ∀ (i j : ℕ) (acc : DiGraph × RState), InvE Q acc.1 ∧ acc.2.f = f0 →
      InvE Q (randStaticInner p ew i acc j).1 ∧
        (randStaticInner p ew i acc j).2.f = f0 := by
  rintro i j ⟨G, s⟩ ⟨hG, hf⟩
  subst hf
  simp only [randStaticInner, RState.draw]
  split_ifs with h1 h2 h3
  · exact ⟨hG, rfl⟩
  · exact ⟨InvE_addEdge hG (by simpa [h3] using hnew i j s.i (s.i + 1) h1 h2), rfl⟩
  · exact ⟨InvE_addEdge hG (by simpa [h3] using hnew i j s.i (s.i + 1) h1 h2), rfl⟩
  · exact ⟨hG, rfl⟩

lemma randStaticRow_inv {Q : ℕ × ℕ → Option ℚ → Prop} {n : ℕ} {p : ℚ} {ew : Bool}
    {f0 : ℕ → ℚ}
    (hnew : ∀ u v k1 k2, u ≠ v → f0 k1 < p →
      Q (u, v) (if ew then some (f0 k2) else none)) :
    ∀ (i : ℕ) (acc : DiGraph × RState), InvE Q acc.1 ∧ acc.2.f = f0 →
      InvE Q (randStaticRow n p ew acc i).1 ∧ (randStaticRow n p ew acc i).2.f = f0 := by
  intro i acc hacc
  exact foldl_pres (fun a : DiGraph × RState => InvE Q a.1 ∧ a.2.f = f0)
    (randStaticInner p ew i) (List.range n)
    (fun a b _ ha => randStaticInner_inv hnew i b a ha) acc hacc

lemma generate_random_graph_inv {Q : ℕ × ℕ → Option ℚ → Prop} {n : ℕ} {p : ℚ}
    {ew : Bool} {dyn : Bool} {ts : ℕ} {s : RState}
    (hnew1 : ∀ u v, u ≠ v → Q (u, v) (if ew then some 1 else none))
    (hmap : ∀ k w, Q k w → Q k (Option.map (· + 1) w))
    (hnews : ∀ u v k1 k2, u ≠ v → s.f k1 < p →
      Q (u, v) (if ew then some (s.f k2) else none)) :
    InvE Q (generate_random_graph n dyn ts p ew s).1 := by
  have hbase : InvE Q (⟨List.range n, []⟩ : DiGraph) := by
    intro e he; simp at he
  unfold generate_random_graph
  split_ifs with hd
  · exact randDynLoop_inv hnew1 hmap ts _ hbase
  · exact (foldl_pres (fun a : DiGraph × RState => InvE Q a.1 ∧ a.2.f = s.f)
      (randStaticRow n p ew) (List.range n)
      (fun a b _ ha => randStaticRow_inv hnews b a ha) (⟨List.range n, []⟩, s)
      ⟨hbase, rfl⟩).1

/-! ### Invariant preservation: homophily generator -/

lemma homTrialDyn_inv {Q : ℕ × ℕ → Option ℚ → Prop} {n g : ℕ} {pin pout : ℚ}
    {ew : Bool} {f0 : ℕ → ℚ}
    (hin : ∀ u v k1, u ≠ v → group g u = group g v → f0 k1 < pin →
      Q (u, v) (if ew then some 1 else none))
    (hout : ∀ u v k1, u ≠ v → group g u ≠ group g v → f0 k1 < pout →
      Q (u, v) (if ew then some 1 else none))
    (hmap : ∀ k w, Q k w → Q k (Option.map (· + 1) w)) :
    ∀ (G : DiGraph) (c : ℕ) (s : RState) (i : ℕ), InvE Q G → s.f = f0 →
      InvE Q (homTrialDyn n g pin pout ew (G, c, s) i).1 ∧
        (homTrialDyn n g pin pout ew (G, c, s) i).2.2.f = f0 := by
  intro G c s i hG hf
  subst hf
  simp only [homTrialDyn, RState.draw, RState.randrange]
  split_ifs with h1 h2 h3 h4 h5 h6 h7 h8 h9 h10
  · exact ⟨hG, rfl⟩
  · exact ⟨InvE_incWeight hG hmap, rfl⟩
  · exact ⟨hG, rfl⟩
  · refine ⟨InvE_addEdge hG ?_, rfl⟩
    simpa [h6] using hin i _ _ (fun h => h1 h.symm) h2 h3
  · refine ⟨InvE_addEdge hG ?_, rfl⟩
    simpa [h6] using hin i _ _ (fun h => h1 h.symm) h2 h3
  · exact ⟨hG, rfl⟩
  · exact ⟨InvE_incWeight hG hmap, rfl⟩
  · exact ⟨hG, rfl⟩
  · refine ⟨InvE_addEdge hG ?_, rfl⟩
    simpa [h10] using hout i _ _ (fun h => h1 h.symm) h2 h7
  · refine ⟨InvE_addEdge hG ?_, rfl⟩
    simpa [h10] using hout i _ _ (fun h => h1 h.symm) h2 h7
  · exact ⟨hG, rfl⟩

lemma homStepDyn_inv {Q : ℕ × ℕ → Option ℚ → Prop} {n g : ℕ} {pin pout : ℚ}
    {ew : Bool} {f0 : ℕ → ℚ}
    (hin : ∀ u v k1, u ≠ v → group g u = group g v → f0 k1 < pin →
      Q (u, v) (if ew then some 1 else none))
    (hout : ∀ u v k1, u ≠ v → group g u ≠ group g v → f0 k1 < pout →
      Q (u, v) (if ew then some 1 else none))
    (hmap : ∀ k w, Q k w → Q k (Option.map (· + 1) w))
    (G : DiGraph) (s : RState) (hG : InvE Q G) (hf : s.f = f0) :
    InvE Q (homStepDyn n g pin pout ew G s).1 ∧
      (homStepDyn n g pin pout ew G s).2.2.f = f0 := by
  exact foldl_pres
    (fun acc : DiGraph × ℕ × RState => InvE Q acc.1 ∧ acc.2.2.f = f0)
    (homTrialDyn n g pin pout ew) (List.range n)
    (fun acc a _ hacc => by
      rcases acc with ⟨G1, c1, s1⟩
      exact homTrialDyn_inv hin hout hmap G1 c1 s1 a hacc.1 hacc.2)
    (G, 0, s) ⟨hG, hf⟩

lemma homDynLoop_inv {Q : ℕ × ℕ → Option ℚ → Prop} {n g : ℕ} {pin pout : ℚ}
    {ew : Bool} {f0 : ℕ → ℚ}
    (hin : ∀ u v k1, u ≠ v → group g u = group g v → f0 k1 < pin →
      Q (u, v) (if ew then some 1 else none))
    (hout : ∀ u v k1, u ≠ v → group g u ≠ group g v → f0 k1 < pout →
      Q (u, v) (if ew then some 1 else none))
    (hmap : ∀ k w, Q k w → Q k (Option.map (· + 1) w)) :
    ∀ (ts : ℕ) (Gs : DiGraph × RState), InvE Q Gs.1 → Gs.2.f = f0 →
      InvE Q (homDynLoop n g pin pout ew ts Gs).1 := by
  intro ts
  induction ts with
  | zero => intro Gs h _; exact h
  | succ t ih =>
    intro Gs h hf
    have hstep := homStepDyn_inv (n := n) hin hout hmap Gs.1 Gs.2 h hf
    exact ih _ hstep.1 hstep.2

lemma homStaticInner_inv {Q : ℕ × ℕ → Option ℚ → Prop} {g : ℕ} {pin pout : ℚ}
    {ew : Bool} {f0 : ℕ → ℚ}
    (hin : ∀ u v k1 k2, u ≠ v → group g u = group g v → f0 k1 < pin →
      Q (u, v) (if ew then some (f0 k2) else none))
    (hout : ∀ u v k1 k2, u ≠ v → group g u ≠ group g v → f0 k1 < pout →
      Q (u, v) (if ew then some (f0 k2) else none)) :
    ∀ (i j : ℕ) (acc : DiGraph × RState), InvE Q acc.1 ∧ acc.2.f = f0 →
      InvE Q (homStaticInner g pin pout ew i acc j).1 ∧
        (homStaticInner g pin pout ew i acc j).2.f = f0 := by
  rintro i j ⟨G, s⟩ ⟨hG, hf⟩
  subst hf
  simp only [homStaticInner, RState.draw]
  split_ifs with h1 h2 h3 h4 h5 h6
  · exact ⟨hG, rfl⟩
  · exact ⟨InvE_addEdge hG (by simpa [h4] using hin i j s.i (s.i + 1) h1 h2 h3), rfl⟩
  · exact ⟨InvE_addEdge hG (by simpa [h4] using hin i j s.i (s.i + 1) h1 h2 h3), rfl⟩
  · exact ⟨hG, rfl⟩
  · exact ⟨InvE_addEdge hG (by simpa [h6] using hout i j s.i (s.i + 1) h1 h2 h5), rfl⟩
  · exact ⟨InvE_addEdge hG (by simpa [h6] using hout i j s.i (s.i + 1) h1 h2 h5), rfl⟩
  · exact ⟨hG, rfl⟩

lemma homStaticRow_inv {Q : ℕ × ℕ → Option ℚ → Prop} {n g : ℕ} {pin pout : ℚ}
    {ew : Bool} {f0 : ℕ → ℚ}
    (hin : ∀ u v k1 k2, u ≠ v → group g u = group g v → f0 k1 < pin →
      Q (u, v) (if ew then some (f0 k2) else none))
    (hout : ∀ u v k1 k2, u ≠ v → group g u ≠ group g v → f0 k1 < pout →
      Q (u, v) (if ew then some (f0 k2) else none)) :
    ∀ (i : ℕ) (acc : DiGraph × RState), InvE Q acc.1 ∧ acc.2.f = f0 →
      InvE Q (homStaticRow n g pin pout ew acc i).1 ∧
        (homStaticRow n g pin pout ew acc i).2.f = f0 := by
  intro i acc hacc
  exact foldl_pres (fun a : DiGraph × RState => InvE Q a.1 ∧ a.2.f = f0)
    (homStaticInner g pin pout ew i) (List.range n)
    (fun a b _ ha => homStaticInner_inv hin hout i b a ha) acc hacc

lemma generate_homophily_graph_inv {Q : ℕ × ℕ → Option ℚ → Prop} {n : ℕ}
    {dyn : Bool} {ts g : ℕ} {pin pout : ℚ} {ew : Bool} {s : RState}
    (hin1 : ∀ u v k1, u ≠ v → group g u = group g v → s.f k1 < pin →
      Q (u, v) (if ew then some 1 else none))
    (hout1 : ∀ u v k1, u ≠ v → group g u ≠ group g v → s.f k1 < pout →
      Q (u, v) (if ew then some 1 else none))
    (hmap : ∀ k w, Q k w → Q k (Option.map (· + 1) w))
    (hins : ∀ u v k1 k2, u ≠ v → group g u = group g v → s.f k1 < pin →
      Q (u, v) (if ew then some (s.f k2) else none))
    (houts : ∀ u v k1 k2, u ≠ v → group g u ≠ group g v → s.f k1 < pout →
      Q (u, v) (if ew then some (s.f k2) else none)) :
    InvE Q (generate_homophily_graph n dyn ts g pin pout ew s).1 := by
  have hbase : InvE Q (⟨List.range n, []⟩ : DiGraph) := by
    intro e he; simp at he
  unfold generate_homophily_graph
  split_ifs with hd
  · exact homDynLoop_inv hin1 hout1 hmap ts _ hbase rfl
  · exact (foldl_pres (fun a : DiGraph × RState => InvE Q a.1 ∧ a.2.f = s.f)
      (homStaticRow n g pin pout ew) (List.range n)
      (fun a b _ ha => homStaticRow_inv hins houts b a ha) (⟨List.range n, []⟩, s)
      ⟨hbase, rfl⟩).1

/-! ### Invariant preservation: preferential-attachment generator -/

lemma cliqueLoop_inv {Q : ℕ × ℕ → Option ℚ → Prop} {ew : Bool}
    (hnew : ∀ u v, u ≠ v → Q (u, v) (if ew then some 1 else none)) (init : ℕ) :
    ∀ G : DiGraph, InvE Q G → InvE Q (cliqueLoop ew init G) := by
  intro G hG
  refine foldl_pres (fun G : DiGraph => InvE Q G) _ (List.range init) ?_ G hG
  intro G1 u _ hG1
  refine foldl_pres (fun G : DiGraph => InvE Q G) _ (List.range init) ?_ G1 hG1
  intro G2 v _ hG2
  by_cases huv : u ≠ v
  · simpa [huv] using InvE_addEdge hG2 (hnew u v huv)
  · simpa [huv] using hG2

lemma mem_insertNode {l : List ℕ} {v x : ℕ} (hx : x ∈ insertNode l v) :
    x ∈ l ∨ x = v := by
  by_cases hv : v ∈ l
  · simp [insertNode, hv] at hx; exact Or.inl hx
  · simp only [insertNode, if_neg hv, List.mem_append, List.mem_singleton] at hx
    exact hx

lemma scanSelect_mem {r : ℚ} :
    ∀ (degs : List (ℕ × ℕ)) (cum : ℚ) (v : ℕ),
      scanSelect r cum degs = some v → v ∈ degs.map Prod.fst := by
  intro degs
  induction degs with
  | nil => intro cum v h; simp [scanSelect] at h
  | cons hd tl ih =>
    rcases hd with ⟨u, d⟩
    intro cum v h
    simp only [scanSelect] at h
    split_ifs at h with hc
    · simp at h; simp [h]
    · simpa using Or.inr (ih _ v h)

lemma selectTargets_mem {m t : ℕ} {degs : List (ℕ × ℕ)} {total : ℚ} :
    ∀ (fuel : ℕ) (tgts : List ℕ) (s : RState) (res : List ℕ × RState),
      selectTargets m t degs total fuel tgts s = some res →
      ∀ x ∈ res.1, (x ∈ tgts ∨ x ∈ degs.map Prod.fst) ∧ (x ∈ tgts ∨ x ≠ t) := by
  intro fuel
  induction fuel with
  | zero =>
    intro tgts s res h x hx
    simp only [selectTargets] at h
    split_ifs at h with hlen
    · simp only [Option.some.injEq] at h
      subst h
      exact ⟨Or.inl hx, Or.inl hx⟩
  | succ fuel ih =>
    intro tgts s res h x hx
    simp only [selectTargets] at h
    split_ifs at h with hlen
    · simp only [Option.some.injEq] at h
      subst h
      exact ⟨Or.inl hx, Or.inl hx⟩
    · rcases hscan : scanSelect (s.uniformTo total).1 0 degs with _ | cand
      · rw [hscan] at h
        dsimp only at h
        exact ih _ _ _ h x hx
      · rw [hscan] at h
        dsimp only at h
        by_cases hct : cand ≠ t
        · rw [if_pos hct] at h
          rcases ih _ _ _ h x hx with ⟨hm, hn⟩
          constructor
          · rcases hm with hm | hm
            · rcases mem_insertNode hm with h1 | h1
              · exact Or.inl h1
              · subst h1; exact Or.inr (scanSelect_mem degs 0 _ hscan)
            · exact Or.inr hm
          · rcases hn with hn | hn
            · rcases mem_insertNode hn with h1 | h1
              · exact Or.inl h1
              · subst h1; exact Or.inr hct
            · exact Or.inr hn
        · rw [if_neg hct] at h
          exact ih _ _ _ h x hx

lemma paArrival_inv {Q : ℕ × ℕ → Option ℚ → Prop} {m : ℕ} {ew : Bool} {fuel : ℕ}
    (hnew : ∀ u v, u ≠ v → Q (u, v) (if ew then some 1 else none)) :
    ∀ (t : ℕ) (acc : Option (DiGraph × RState)),
      (∀ Gs ∈ acc, InvE Q Gs.1) →
      ∀ Gs ∈ paArrival m ew fuel acc t, InvE Q Gs.1 := by
  intro t acc hacc Gs hGs
  match acc, hacc with
  | none, _ => simp [paArrival] at hGs
  | some ⟨G, s⟩, hacc =>
    have hG : InvE Q G := hacc _ rfl
    simp only [paArrival] at hGs
    rcases hsel : selectTargets m t ((G.addNode t).nodes.map
        (fun v => (v, (G.addNode t).degree v)))
        ((((G.addNode t).nodes.map (fun v => (v, (G.addNode t).degree v))).map
          (fun x => (x.2 : ℚ))).sum) fuel [] s with _ | tgtsPair
    · rw [hsel] at hGs; simp at hGs
    · rw [hsel] at hGs
      simp only [Option.mem_def, Option.some.injEq] at hGs
      subst hGs
      have htgts := selectTargets_mem fuel [] s tgtsPair hsel
      refine foldl_pres (fun G : DiGraph => InvE Q G) _ tgtsPair.1 ?_ (G.addNode t)
        (fun e he => hG e he)
      intro G1 tgt htn hG1
      have hne : tgt ≠ t := by
        rcases (htgts tgt htn).2 with h | h
        · simp at h
        · exact h
      exact InvE_addEdge hG1 (hnew t tgt (fun h => hne h.symm))

lemma pa_dynamic_inv {Q : ℕ × ℕ → Option ℚ → Prop} {n m : ℕ} {ew : Bool}
    {fuel : ℕ} {s : RState}
    (hnew : ∀ u v, u ≠ v → Q (u, v) (if ew then some 1 else none)) :
    ∀ Gs ∈ pa_dynamic n m ew fuel s, InvE Q Gs.1 := by
  have hclique : InvE Q (cliqueLoop ew (m + 1) ⟨List.range (m + 1), []⟩) :=
    cliqueLoop_inv hnew (m + 1) _ (by intro e he; simp at he)
  unfold pa_dynamic
  refine foldl_pres (fun acc : Option (DiGraph × RState) => ∀ Gs ∈ acc, InvE Q Gs.1)
    (paArrival m ew fuel) (List.range' (m + 1) (n - (m + 1))) ?_ _ ?_
  · intro acc t _ hacc
    exact paArrival_inv hnew t acc hacc
  · intro Gs hGs
    simp only [Option.mem_def, Option.some.injEq] at hGs
    subst hGs
    exact hclique

lemma pa_static_inv {Q : ℕ × ℕ → Option ℚ → Prop} {n : ℕ} {ba : List (ℕ × ℕ)}
    {ew : Bool} {s : RState}
    (hdir : ∀ e ∈ ba, ∀ k, Q (e.1, e.2) (if ew then some (s.f k) else none) ∧
      Q (e.2, e.1) (if ew then some (s.f k) else none)) :
    InvE Q (pa_static n ba ew s).1 := by
  unfold pa_static
  refine (foldl_pres (fun acc : DiGraph × RState =>
      InvE Q acc.1 ∧ acc.2.f = s.f) _ ba ?_ (⟨List.range n, []⟩, s)
      ⟨by intro e he; simp at he, rfl⟩).1
  rintro ⟨G1, s1⟩ e he ⟨hG1, hf1⟩
  rcases hdk : e with ⟨u, v⟩
  subst hdk
  have h1 := hdir (u, v) he
  by_cases hew : ew
  · subst hew
    simp only [RState.draw]
    refine ⟨InvE_addEdge (InvE_addEdge hG1 ?_) ?_, hf1⟩
    · simpa using (by rw [hf1]; exact (h1 s1.i).1 : Q (u, v) (if true then some (s1.f s1.i) else none))
    · simpa using (by rw [hf1]; exact (h1 (s1.i + 1)).2 : Q (v, u) (if true then some (s1.f (s1.i + 1)) else none))
  · simp only [Bool.not_eq_true] at hew
    subst hew
    refine ⟨InvE_addEdge (InvE_addEdge hG1 ?_) ?_, hf1⟩
    · simpa using (h1 0).1
    · simpa using (h1 0).2

lemma generate_pa_inv {Q : ℕ × ℕ → Option ℚ → Prop} {n : ℕ} {dyn : Bool}
    {ts m : ℕ} {ew : Bool} {ba : List (ℕ × ℕ)} {fuel : ℕ} {s : RState}
    (hnew : ∀ u v, u ≠ v → Q (u, v) (if ew then some 1 else none))
    (hdir : ∀ e ∈ ba, ∀ k, Q (e.1, e.2) (if ew then some (s.f k) else none) ∧
      Q (e.2, e.1) (if ew then some (s.f k) else none)) :
    ∀ Gs ∈ generate_preferential_attachment_graph n dyn ts m ew ba fuel s,
      InvE Q Gs.1 := by
  unfold generate_preferential_attachment_graph
  split_ifs with hd
  · exact pa_dynamic_inv hnew
  · intro Gs hGs
    simp only [Option.mem_def, Option.some.injEq] at hGs
    subst hGs
    exact pa_static_inv hdir

/-! ### Mode-specific invariant corollaries -/

lemma generate_random_graph_dyn_inv {Q : ℕ × ℕ → Option ℚ → Prop} {n : ℕ}
    {p : ℚ} {ew : Bool} {ts : ℕ} {s : RState}
    (hnew : ∀ u v, u ≠ v → Q (u, v) (if ew then some 1 else none))
    (hmap : ∀ k w, Q k w → Q k (Option.map (· + 1) w)) :
    InvE Q (generate_random_graph n true ts p ew s).1 := by
  have hbase : InvE Q (⟨List.range n, []⟩ : DiGraph) := by
    intro e he; simp at he
  exact randDynLoop_inv hnew hmap ts _ hbase

lemma generate_random_graph_static_inv {Q : ℕ × ℕ → Option ℚ → Prop} {n : ℕ}
    {p : ℚ} {ew : Bool} {ts : ℕ} {s : RState}
    (hnews : ∀ u v k1 k2, u ≠ v → s.f k1 < p →
      Q (u, v) (if ew then some (s.f k2) else none)) :
    InvE Q (generate_random_graph n false ts p ew s).1 := by
  have hbase : InvE Q (⟨List.range n, []⟩ : DiGraph) := by
    intro e he; simp at he
  exact (foldl_pres (fun a : DiGraph × RState => InvE Q a.1 ∧ a.2.f = s.f)
    (randStaticRow n p ew) (List.range n)
    (fun a b _ ha => randStaticRow_inv hnews b a ha) (⟨List.range n, []⟩, s)
    ⟨hbase, rfl⟩).1

lemma generate_homophily_graph_dyn_inv {Q : ℕ × ℕ → Option ℚ → Prop} {n : ℕ}
    {ts g : ℕ} {pin pout : ℚ} {ew : Bool} {s : RState}
    (hin1 : ∀ u v k1, u ≠ v → group g u = group g v → s.f k1 < pin →
      Q (u, v) (if ew then some 1 else none))
    (hout1 : ∀ u v k1, u ≠ v → group g u ≠ group g v → s.f k1 < pout →
      Q (u, v) (if ew then some 1 else none))
    (hmap : ∀ k w, Q k w → Q k (Option.map (· + 1) w)) :
    InvE Q (generate_homophily_graph n true ts g pin pout ew s).1 := by
  have hbase : InvE Q (⟨List.range n, []⟩ : DiGraph) := by
    intro e he; simp at he
  exact homDynLoop_inv hin1 hout1 hmap ts _ hbase rfl

lemma generate_homophily_graph_static_inv {Q : ℕ × ℕ → Option ℚ → Prop} {n : ℕ}
    {ts g : ℕ} {pin pout : ℚ} {ew : Bool} {s : RState}
    (hins : ∀ u v k1 k2, u ≠ v → group g u = group g v → s.f k1 < pin →
      Q (u, v) (if ew then some (s.f k2) else none))
    (houts : ∀ u v k1 k2, u ≠ v → group g u ≠ group g v → s.f k1 < pout →
      Q (u, v) (if ew then some (s.f k2) else none)) :
    InvE Q (generate_homophily_graph n false ts g pin pout ew s).1 := by
  have hbase : InvE Q (⟨List.range n, []⟩ : DiGraph) := by
    intro e he; simp at he
  exact (foldl_pres (fun a : DiGraph × RState => InvE Q a.1 ∧ a.2.f = s.f)
    (homStaticRow n g pin pout ew) (List.range n)
    (fun a b _ ha => homStaticRow_inv hins houts b a ha) (⟨List.range n, []⟩, s)
    ⟨hbase, rfl⟩).1

lemma generate_pa_dyn_inv {Q : ℕ × ℕ → Option ℚ → Prop} {n : ℕ} {ts m : ℕ}
    {ew : Bool} {ba : List (ℕ × ℕ)} {fuel : ℕ} {s : RState}
    (hnew : ∀ u v, u ≠ v → Q (u, v) (if ew then some 1 else none)) :
    ∀ Gs ∈ generate_preferential_attachment_graph n true ts m ew ba fuel s,
      InvE Q Gs.1 := by
  simpa [generate_preferential_attachment_graph] using
    @pa_dynamic_inv Q n m ew fuel s hnew

lemma generate_pa_static_inv' {Q : ℕ × ℕ → Option ℚ → Prop} {n : ℕ} {ts m : ℕ}
    {ew : Bool} {ba : List (ℕ × ℕ)} {fuel : ℕ} {s : RState}
    (hdir : ∀ e ∈ ba, ∀ k, Q (e.1, e.2) (if ew then some (s.f k) else none) ∧
      Q (e.2, e.1) (if ew then some (s.f k) else none)) :
    ∀ Gs ∈ generate_preferential_attachment_graph n false ts m ew ba fuel s,
      InvE Q Gs.1 := by
  intro Gs hGs
  simp only [generate_preferential_attachment_graph, if_neg (by simp : ¬(false : Bool) = true),
    Option.mem_def, Option.some.injEq] at hGs
  subst hGs
  exact pa_static_inv hdir

/-! ### Claim C1: no self-loops -/

/-- C1: for every configuration and every random stream, no graph produced
by any of the three generators (random, preferential attachment, homophily),
in static or dynamic mode, contains a self-loop edge `(i, i)`.  For the
static preferential-attachment branch the external Barabási–Albert base
graph is assumed self-loop free (its documented behavior). -/
theorem c1_no_self_loops :
    (∀ (n : ℕ) (dyn : Bool) (ts : ℕ) (p : ℚ) (ew : Bool) (s : RState),
        NoSelfLoop (generate_random_graph n dyn ts p ew s).1)
  ∧ (∀ (n : ℕ) (dyn : Bool) (ts m : ℕ) (ew : Bool) (ba : List (ℕ × ℕ))
        (fuel : ℕ) (s : RState), (∀ e ∈ ba, e.1 ≠ e.2) →
        ∀ Gs ∈ generate_preferential_attachment_graph n dyn ts m ew ba fuel s,
          NoSelfLoop Gs.1)
  ∧ (∀ (n : ℕ) (dyn : Bool) (ts g : ℕ) (pin pout : ℚ) (ew : Bool) (s : RState),
        NoSelfLoop (generate_homophily_graph n dyn ts g pin pout ew s).1) := by
  refine ⟨?_, ?_, ?_⟩
  · intro n dyn ts p ew s
    exact generate_random_graph_inv (Q := fun ep _ => ep.1 ≠ ep.2)
      (fun u v h => h) (fun k w h => h) (fun u v k1 k2 h _ => h)
  · intro n dyn ts m ew ba fuel s hba
    exact generate_pa_inv (Q := fun ep _ => ep.1 ≠ ep.2)
      (fun u v h => h)
      (fun e he k => ⟨hba e he, (hba e he).symm⟩)
  · intro n dyn ts g pin pout ew s
    exact generate_homophily_graph_inv (Q := fun ep _ => ep.1 ≠ ep.2)
      (fun u v k1 h _ _ => h) (fun u v k1 h _ _ => h) (fun k w h => h)
      (fun u v k1 k2 h _ _ => h) (fun u v k1 k2 h _ _ => h)

/-- Witness for C1 at a concrete input: the preferential-attachment part
applied with the concrete base edges `[(0, 1)]` and a constant-zero
stream. -/
theorem c1_no_self_loops_witness :
    (∀ e ∈ ([(0, 1)] : List (ℕ × ℕ)), e.1 ≠ e.2) ∧
    (∀ Gs ∈ generate_preferential_attachment_graph 3 false 0 1 true [(0, 1)] 0
        ⟨fun _ => 0, 0⟩, NoSelfLoop Gs.1) :=
  ⟨by decide,
   c1_no_self_loops.2.1 3 false 0 1 true [(0, 1)] 0 ⟨fun _ => 0, 0⟩ (by decide)⟩

/-! ### Claim C9: time_steps never influences preferential attachment -/

/-- C9: the output of `generate_preferential_attachment_graph` is
independent of the `time_steps` argument — for any two values of
`time_steps`, with all other arguments and the random stream identical,
the generator (static or dynamic) produces identical results; the number
of dynamic arrival steps is fixed by `num_agents` and `edges_per_step`. -/
theorem c9_pa_ignores_time_steps (n : ℕ) (dyn : Bool) (ts1 ts2 m : ℕ)
    (ew : Bool) (ba : List (ℕ × ℕ)) (fuel : ℕ) (s : RState) :
    generate_preferential_attachment_graph n dyn ts1 m ew ba fuel s =
      generate_preferential_attachment_graph n dyn ts2 m ew ba fuel s := rfl

/-! ### Claim C2: edge-weight invariant -/

/-- C2 counterexample: in static weighted mode the weight is a fresh
`uniform(0,1)` draw, which can be exactly `0`.  With the valid constant-zero
stream, `generate_random_graph(2, static, p=1, weighted)` produces the edge
`(0, 1)` carrying weight `0`, so not every carried weight is strictly
positive. -/
theorem c2_weight_positive_counterexample :
    ¬ (∀ e ∈ (generate_random_graph 2 false 0 1 true ⟨fun _ => 0, 0⟩).1.edges,
        ∀ q, e.2 = some q → 0 < q) := by
  intro h
  exact absurd (h ((0, 1), some 0) (by decide) 0 rfl) (by simp)

/-- C2 amended: in dynamic weighted mode every carried weight is at least 1
(it starts at 1 and only ever grows), for all three generators; in static
weighted mode every carried weight is a single uniform(0,1) sample, hence
in `[0, 1)` — nonnegative but possibly exactly 0 — for all three
generators; and in unweighted mode no edge of any generator carries a
numeric weight. -/
theorem c2_weight_invariant_amended :
    (∀ (n ts : ℕ) (p : ℚ) (s : RState),
        InvE (fun _ w => ∀ q, w = some q → 1 ≤ q)
          (generate_random_graph n true ts p true s).1)
  ∧ (∀ (n ts g : ℕ) (pin pout : ℚ) (s : RState),
        InvE (fun _ w => ∀ q, w = some q → 1 ≤ q)
          (generate_homophily_graph n true ts g pin pout true s).1)
  ∧ (∀ (n ts m : ℕ) (ba : List (ℕ × ℕ)) (fuel : ℕ) (s : RState),
        ∀ Gs ∈ generate_preferential_attachment_graph n true ts m true ba fuel s,
          InvE (fun _ w => ∀ q, w = some q → 1 ≤ q) Gs.1)
  ∧ (∀ (n ts : ℕ) (p : ℚ) (s : RState), ValidStream s.f →
        InvE (fun _ w => ∀ q, w = some q → 0 ≤ q ∧ q < 1)
          (generate_random_graph n false ts p true s).1)
  ∧ (∀ (n ts g : ℕ) (pin pout : ℚ) (s : RState), ValidStream s.f →
        InvE (fun _ w => ∀ q, w = some q → 0 ≤ q ∧ q < 1)
          (generate_homophily_graph n false ts g pin pout true s).1)
  ∧ (∀ (n ts m : ℕ) (ba : List (ℕ × ℕ)) (fuel : ℕ) (s : RState), ValidStream s.f →
        ∀ Gs ∈ generate_preferential_attachment_graph n false ts m true ba fuel s,
          InvE (fun _ w => ∀ q, w = some q → 0 ≤ q ∧ q < 1) Gs.1)
  ∧ (∀ (n : ℕ) (dyn : Bool) (ts : ℕ) (p : ℚ) (s : RState),
        InvE (fun _ w => w = none) (generate_random_graph n dyn ts p false s).1)
  ∧ (∀ (n : ℕ) (dyn : Bool) (ts g : ℕ) (pin pout : ℚ) (s : RState),
        InvE (fun _ w => w = none)
          (generate_homophily_graph n dyn ts g pin pout false s).1)
  ∧ (∀ (n : ℕ) (dyn : Bool) (ts m : ℕ) (ba : List (ℕ × ℕ)) (fuel : ℕ) (s : RState),
        ∀ Gs ∈ generate_preferential_attachment_graph n dyn ts m false ba fuel s,
          InvE (fun _ w => w = none) Gs.1) := by
  refine ⟨?_, ?_, ?_, ?_, ?_, ?_, ?_, ?_, ?_⟩
  · intro n ts p s
    exact generate_random_graph_dyn_inv
      (fun u v h => by simp)
      (fun k w h q hq => by
        rcases w with _ | w0
        · simp at hq
        · have hq2 : w0 + 1 = q := by simpa using hq
          have hw := h w0 rfl
          subst hq2
          linarith)
  · intro n ts g pin pout s
    exact generate_homophily_graph_dyn_inv
      (fun u v k1 h _ _ => by simp)
      (fun u v k1 h _ _ => by simp)
      (fun k w h q hq => by
        rcases w with _ | w0
        · simp at hq
        · have hq2 : w0 + 1 = q := by simpa using hq
          have hw := h w0 rfl
          subst hq2
          linarith)
  · intro n ts m ba fuel s
    exact generate_pa_dyn_inv (fun u v h => by simp)
  · intro n ts p s hv
    exact generate_random_graph_static_inv
      (fun u v k1 k2 h _ => by
        intro q hq
        simp at hq
        subst hq
        exact hv k2)
  · intro n ts g pin pout s hv
    exact generate_homophily_graph_static_inv
      (fun u v k1 k2 h _ _ => by
        intro q hq
        simp at hq
        subst hq
        exact hv k2)
      (fun u v k1 k2 h _ _ => by
        intro q hq
        simp at hq
        subst hq
        exact hv k2)
  · intro n ts m ba fuel s hv
    exact generate_pa_static_inv'
      (fun e he k => by
        constructor <;>
          · intro q hq
            simp at hq
            subst hq
            exact hv k)
  · intro n dyn ts p s
    exact generate_random_graph_inv
      (fun u v h => by simp)
      (fun k w h => by subst h; simp)
      (fun u v k1 k2 h _ => by simp)
  · intro n dyn ts g pin pout s
    exact generate_homophily_graph_inv
      (fun u v k1 h _ _ => by simp)
      (fun u v k1 h _ _ => by simp)
      (fun k w h => by subst h; simp)
      (fun u v k1 k2 h _ _ => by simp)
      (fun u v k1 k2 h _ _ => by simp)
  · intro n dyn ts m ba fuel s
    exact generate_pa_inv
      (fun u v h => by simp)
      (fun e he k => by simp)

/-- Witness for C2 (amended) at concrete inputs: the static weighted bound
with the valid constant-zero stream, the dynamic weighted bound, and the
unweighted preferential-attachment case. -/
theorem c2_weight_invariant_witness :
    InvE (fun _ w => ∀ q, w = some q → 0 ≤ q ∧ q < 1)
      (generate_random_graph 2 false 0 1 true ⟨fun _ => 0, 0⟩).1 ∧
    InvE (fun _ w => ∀ q, w = some q → 1 ≤ q)
      (generate_random_graph 2 true 1 1 true ⟨fun _ => 0, 0⟩).1 ∧
    InvE (fun _ w => w = none) (pa_static 1 [] false ⟨fun _ => 0, 0⟩).1 :=
  ⟨c2_weight_invariant_amended.2.2.2.1 2 0 1 ⟨fun _ => 0, 0⟩
      (fun k => ⟨le_refl 0, by norm_num⟩),
   c2_weight_invariant_amended.1 2 1 1 ⟨fun _ => 0, 0⟩,
   c2_weight_invariant_amended.2.2.2.2.2.2.2.2 1 false 0 1 [] 0 ⟨fun _ => 0, 0⟩
     (pa_static 1 [] false ⟨fun _ => 0, 0⟩) rfl⟩

/-! ### Claim C3: zero-probability / zero-time edge case -/

lemma edges_nil_of_invE_false {G : DiGraph} (h : InvE (fun _ _ => False) G) :
    G.edges = [] := by
  cases hE : G.edges with
  | nil => rfl
  | cons e rest =>
    exact absurd (h e (by rw [hE]; exact List.mem_cons_self e rest)) not_false

/-- C3 counterexample: dynamic preferential attachment ignores
`time_steps`; with `time_steps = 0`, `num_agents = 2` and
`edges_per_step = 1` it still builds the seed clique and returns a graph
with 2 edges, not 0. -/
theorem c3_zero_time_counterexample :
    ∃ Gs, generate_preferential_attachment_graph 2 true 0 1 false [] 0
        ⟨fun _ => 0, 0⟩ = some Gs ∧ Gs.1.edgeCount = 2 ∧ Gs.1.edgeCount ≠ 0 :=
  ⟨_, rfl, by decide, by decide⟩

/-- C3 amended: with `time_steps = 0` in dynamic mode the random
generator, and the homophily generator for any positive
`homophily_groups`, return a graph with zero edges and raise no error;
with `p = 0` (random) or `p_in = p_out = 0` (homophily, positive
`homophily_groups`) the static generators return a graph with zero edges
and raise no error.  Dynamic preferential attachment is excluded, since
it ignores `time_steps`; and the homophily conjuncts require
`0 < homophily_groups` because with `homophily_groups = 0` and a
non-empty node set the source raises `ZeroDivisionError` at the group
assignment of line 95 (before any edge logic, in both modes). -/
theorem c3_zero_probability_zero_time :
    (∀ (n : ℕ) (p : ℚ) (ew : Bool) (s : RState),
        (generate_random_graph n true 0 p ew s).1.edges = [])
  ∧ (∀ (n g : ℕ) (pin pout : ℚ) (ew : Bool) (s : RState), 0 < g →
        (generate_homophily_graph n true 0 g pin pout ew s).1.edges = [])
  ∧ (∀ (n ts : ℕ) (ew : Bool) (s : RState), ValidStream s.f →
        (generate_random_graph n false ts 0 ew s).1.edges = [])
  ∧ (∀ (n ts g : ℕ) (ew : Bool) (s : RState), ValidStream s.f → 0 < g →
        (generate_homophily_graph n false ts g 0 0 ew s).1.edges = []) := by
  refine ⟨?_, ?_, ?_, ?_⟩
  · intro n p ew s; rfl
  · intro n g pin pout ew s _; rfl
  · intro n ts ew s hv
    exact edges_nil_of_invE_false
      (generate_random_graph_static_inv
        (fun u v k1 k2 _ hlt => absurd hlt (not_lt.mpr (hv k1).1)))
  · intro n ts g ew s hv _
    exact edges_nil_of_invE_false
      (generate_homophily_graph_static_inv
        (fun u v k1 k2 _ _ hlt => absurd hlt (not_lt.mpr (hv k1).1))
        (fun u v k1 k2 _ _ hlt => absurd hlt (not_lt.mpr (hv k1).1)))

/-- Witness for C3 (amended) at concrete inputs: zero time steps
dynamically (random, and homophily with 2 groups) and zero probabilities
statically, with the valid constant-zero stream, always give edgeless
graphs. -/
theorem c3_zero_probability_zero_time_witness :
    (generate_random_graph 3 true 0 (1 / 2) true ⟨fun _ => 0, 0⟩).1.edges = [] ∧
    (generate_homophily_graph 3 true 0 2 (1 / 2) (1 / 4) true
      ⟨fun _ => 0, 0⟩).1.edges = [] ∧
    (generate_random_graph 3 false 7 0 false ⟨fun _ => 0, 0⟩).1.edges = [] ∧
    (generate_homophily_graph 3 false 7 2 0 0 true ⟨fun _ => 0, 0⟩).1.edges = [] :=
  ⟨c3_zero_probability_zero_time.1 3 (1 / 2) true ⟨fun _ => 0, 0⟩,
   c3_zero_probability_zero_time.2.1 3 2 (1 / 2) (1 / 4) true ⟨fun _ => 0, 0⟩
     (by norm_num),
   c3_zero_probability_zero_time.2.2.1 3 7 false ⟨fun _ => 0, 0⟩
     (fun k => ⟨le_refl 0, by norm_num⟩),
   c3_zero_probability_zero_time.2.2.2 3 7 2 true ⟨fun _ => 0, 0⟩
     (fun k => ⟨le_refl 0, by norm_num⟩) (by norm_num)⟩

/-! ### Claim C4: node counts -/

lemma randTrialDyn_nodes {n : ℕ} {p : ℚ} {ew : Bool} :
    ∀ (G : DiGraph) (c : ℕ) (s : RState) (i : ℕ), i < n → G.nodes = List.range n →
      (randTrialDyn n p ew (G, c, s) i).1.nodes = List.range n := by
  intro G c s i hi hG
  have hn0 : 0 < n := lt_of_le_of_lt (Nat.zero_le i) hi
  have hjlt : (Rat.floor (s.f (s.i + 1) * n)).toNat % n < n := Nat.mod_lt _ hn0
  simp only [randTrialDyn, RState.draw, RState.randrange]
  split_ifs with h1 h2 h3 h4 h5
  · exact hG
  · rw [incWeight_nodes]; exact hG
  · exact hG
  · rw [addEdge_nodes (by rw [hG]; exact List.mem_range.mpr hi)
      (by rw [hG]; exact List.mem_range.mpr hjlt)]
    exact hG
  · rw [addEdge_nodes (by rw [hG]; exact List.mem_range.mpr hi)
      (by rw [hG]; exact List.mem_range.mpr hjlt)]
    exact hG
  · exact hG

lemma homTrialDyn_nodes {n g : ℕ} {pin pout : ℚ} {ew : Bool} :
    ∀ (G : DiGraph) (c : ℕ) (s : RState) (i : ℕ), i < n → G.nodes = List.range n →
      (homTrialDyn n g pin pout ew (G, c, s) i).1.nodes = List.range n := by
  intro G c s i hi hG
  have hn0 : 0 < n := lt_of_le_of_lt (Nat.zero_le i) hi
  have hjlt : (Rat.floor (s.f s.i * n)).toNat % n < n := Nat.mod_lt _ hn0
  have hmi : i ∈ G.nodes := by rw [hG]; exact List.mem_range.mpr hi
  have hmj : (Rat.floor (s.f s.i * n)).toNat % n ∈ G.nodes := by
    rw [hG]; exact List.mem_range.mpr hjlt
  simp only [homTrialDyn, RState.draw, RState.randrange]
  split_ifs with h1 h2 h3 h4 h5 h6 h7 h8 h9 h10
  · exact hG
  · rw [incWeight_nodes]; exact hG
  · exact hG
  · rw [addEdge_nodes hmi hmj]; exact hG
  · rw [addEdge_nodes hmi hmj]; exact hG
  · exact hG
  · rw [incWeight_nodes]; exact hG
  · exact hG
  · rw [addEdge_nodes hmi hmj]; exact hG
  · rw [addEdge_nodes hmi hmj]; exact hG
  · exact hG

lemma randStaticInner_nodes {n : ℕ} {p : ℚ} {ew : Bool} :
    ∀ (i j : ℕ) (acc : DiGraph × RState), i < n → j < n →
      acc.1.nodes = List.range n →
      (randStaticInner p ew i acc j).1.nodes = List.range n := by
  rintro i j ⟨G, s⟩ hi hj hG
  have hmi : i ∈ G.nodes := by rw [hG]; exact List.mem_range.mpr hi
  have hmj : j ∈ G.nodes := by rw [hG]; exact List.mem_range.mpr hj
  simp only [randStaticInner, RState.draw]
  split_ifs with h1 h2 h3
  · exact hG
  · rw [addEdge_nodes hmi hmj]; exact hG
  · rw [addEdge_nodes hmi hmj]; exact hG
  · exact hG

lemma homStaticInner_nodes {n g : ℕ} {pin pout : ℚ} {ew : Bool} :
    ∀ (i j : ℕ) (acc : DiGraph × RState), i < n → j < n →
      acc.1.nodes = List.range n →
      (homStaticInner g pin pout ew i acc j).1.nodes = List.range n := by
  rintro i j ⟨G, s⟩ hi hj hG
  have hmi : i ∈ G.nodes := by rw [hG]; exact List.mem_range.mpr hi
  have hmj : j ∈ G.nodes := by rw [hG]; exact List.mem_range.mpr hj
  simp only [homStaticInner, RState.draw]
  split_ifs with h1 h2 h3 h4 h5 h6
  · exact hG
  · rw [addEdge_nodes hmi hmj]; exact hG
  · rw [addEdge_nodes hmi hmj]; exact hG
  · exact hG
  · rw [addEdge_nodes hmi hmj]; exact hG
  · rw [addEdge_nodes hmi hmj]; exact hG
  · exact hG

lemma generate_random_graph_nodes (n : ℕ) (dyn : Bool) (ts : ℕ) (p : ℚ)
    (ew : Bool) (s : RState) :
    (generate_random_graph n dyn ts p ew s).1.nodes = List.range n := by
  unfold generate_random_graph
  split_ifs with hd
  · suffices h : ∀ (ts : ℕ) (Gs : DiGraph × RState), Gs.1.nodes = List.range n →
        (randDynLoop n p ew ts Gs).1.nodes = List.range n from h ts _ rfl
    intro ts
    induction ts with
    | zero => intro Gs h; exact h
    | succ t ih =>
      intro Gs h
      refine ih _ ?_
      exact foldl_pres (fun acc : DiGraph × ℕ × RState => acc.1.nodes = List.range n)
        (randTrialDyn n p ew) (List.range n)
        (fun acc a ha hacc => by
          rcases acc with ⟨G1, c1, s1⟩
          exact randTrialDyn_nodes G1 c1 s1 a (List.mem_range.mp ha) hacc)
        (Gs.1, 0, Gs.2) h
  · refine (foldl_pres (fun a : DiGraph × RState => a.1.nodes = List.range n)
      (randStaticRow n p ew) (List.range n) ?_ (⟨List.range n, []⟩, s) rfl)
    intro a i hi ha
    exact foldl_pres (fun a : DiGraph × RState => a.1.nodes = List.range n)
      (randStaticInner p ew i) (List.range n)
      (fun a j hj ha2 =>
        randStaticInner_nodes i j a (List.mem_range.mp hi) (List.mem_range.mp hj) ha2)
      a ha

lemma generate_homophily_graph_nodes (n : ℕ) (dyn : Bool) (ts g : ℕ)
    (pin pout : ℚ) (ew : Bool) (s : RState) :
    (generate_homophily_graph n dyn ts g pin pout ew s).1.nodes = List.range n := by
  unfold generate_homophily_graph
  split_ifs with hd
  · suffices h : ∀ (ts : ℕ) (Gs : DiGraph × RState), Gs.1.nodes = List.range n →
        (homDynLoop n g pin pout ew ts Gs).1.nodes = List.range n from h ts _ rfl
    intro ts
    induction ts with
    | zero => intro Gs h; exact h
    | succ t ih =>
      intro Gs h
      refine ih _ ?_
      exact foldl_pres (fun acc : DiGraph × ℕ × RState => acc.1.nodes = List.range n)
        (homTrialDyn n g pin pout ew) (List.range n)
        (fun acc a ha hacc => by
          rcases acc with ⟨G1, c1, s1⟩
          exact homTrialDyn_nodes G1 c1 s1 a (List.mem_range.mp ha) hacc)
        (Gs.1, 0, Gs.2) h
  · refine (foldl_pres (fun a : DiGraph × RState => a.1.nodes = List.range n)
      (homStaticRow n g pin pout ew) (List.range n) ?_ (⟨List.range n, []⟩, s) rfl)
    intro a i hi ha
    exact foldl_pres (fun a : DiGraph × RState => a.1.nodes = List.range n)
      (homStaticInner g pin pout ew i) (List.range n)
      (fun a j hj ha2 =>
        homStaticInner_nodes i j a (List.mem_range.mp hi) (List.mem_range.mp hj) ha2)
      a ha

lemma pa_static_nodes {n : ℕ} {ba : List (ℕ × ℕ)} {ew : Bool} {s : RState}
    (hba : ∀ e ∈ ba, e.1 < n ∧ e.2 < n) :
    (pa_static n ba ew s).1.nodes = List.range n := by
  unfold pa_static
  refine foldl_pres (fun a : DiGraph × RState => a.1.nodes = List.range n)
    _ ba ?_ (⟨List.range n, []⟩, s) rfl
  rintro ⟨G1, s1⟩ e he hG1
  rcases e with ⟨u, v⟩
  obtain ⟨hun, hvn⟩ := hba (u, v) he
  have hu : u ∈ G1.nodes := by rw [hG1]; exact List.mem_range.mpr hun
  have hv : v ∈ G1.nodes := by rw [hG1]; exact List.mem_range.mpr hvn
  dsimp only [RState.draw]
  split_ifs with hew
  · have h1 : (G1.addEdge u v (some (s1.f s1.i))).nodes = G1.nodes :=
      addEdge_nodes hu hv _
    rw [addEdge_nodes (by rw [h1]; exact hv) (by rw [h1]; exact hu), h1]
    exact hG1
  · have h1 : (G1.addEdge u v none).nodes = G1.nodes := addEdge_nodes hu hv _
    rw [addEdge_nodes (by rw [h1]; exact hv) (by rw [h1]; exact hu), h1]
    exact hG1

lemma cliqueLoop_nodes {ew : Bool} (init : ℕ) :
    ∀ G : DiGraph, G.nodes = List.range init →
      (cliqueLoop ew init G).nodes = List.range init := by
  intro G hG
  refine foldl_pres (fun G : DiGraph => G.nodes = List.range init) _
    (List.range init) ?_ G hG
  intro G1 u hu hG1
  refine foldl_pres (fun G : DiGraph => G.nodes = List.range init) _
    (List.range init) ?_ G1 hG1
  intro G2 v hv hG2
  have hmu : u ∈ G2.nodes := by rw [hG2]; exact hu
  have hmv : v ∈ G2.nodes := by rw [hG2]; exact hv
  by_cases huv : u ≠ v
  · simp only [if_pos huv]
    rw [addEdge_nodes hmu hmv]
    exact hG2
  · simp only [if_neg huv]
    exact hG2

lemma addNode_fresh_nodes {G : DiGraph} {t : ℕ} (hG : G.nodes = List.range t) :
    (G.addNode t).nodes = List.range (t + 1) := by
  simp only [DiGraph.addNode, insertNode, hG]
  rw [if_neg (by simp : ¬ t ∈ List.range t)]
  exact (List.range_succ t).symm

lemma paArrival_nodes {m : ℕ} {ew : Bool} {fuel : ℕ} {t : ℕ}
    {G : DiGraph} {s : RState} (hG : G.nodes = List.range t) :
    ∀ Gs ∈ paArrival m ew fuel (some (G, s)) t, Gs.1.nodes = List.range (t + 1) := by
  intro Gs hGs
  have hAdd : (G.addNode t).nodes = List.range (t + 1) := addNode_fresh_nodes hG
  simp only [paArrival] at hGs
  rcases hsel : selectTargets m t ((G.addNode t).nodes.map
      (fun v => (v, (G.addNode t).degree v)))
      ((((G.addNode t).nodes.map (fun v => (v, (G.addNode t).degree v))).map
        (fun x => (x.2 : ℚ))).sum) fuel [] s with _ | tgtsPair
  · rw [hsel] at hGs; simp at hGs
  · rw [hsel] at hGs
    simp only [Option.mem_def, Option.some.injEq] at hGs
    subst hGs
    have htgts := selectTargets_mem fuel [] s tgtsPair hsel
    have hdegs : ((G.addNode t).nodes.map
        (fun v => (v, (G.addNode t).degree v))).map Prod.fst = (G.addNode t).nodes := by
      simp [List.map_map, Function.comp_def]
    refine foldl_pres (fun G2 : DiGraph => G2.nodes = List.range (t + 1)) _
      tgtsPair.1 ?_ (G.addNode t) hAdd
    intro G2 tgt htgt hG2
    have hmem : tgt ∈ List.range (t + 1) := by
      rcases (htgts tgt htgt).1 with h | h
      · simp at h
      · rw [hdegs] at h
        rw [← hAdd]; exact h
    rw [addEdge_nodes (by rw [hG2]; simp) (by rw [hG2]; exact hmem)]
    exact hG2

lemma foldl_paArrival_none {m : ℕ} {ew : Bool} {fuel : ℕ} :
    ∀ l : List ℕ, l.foldl (paArrival m ew fuel) none = none := by
  intro l
  induction l with
  | nil => rfl
  | cons a l ih => simpa [paArrival] using ih

lemma paArrivals_nodes {m : ℕ} {ew : Bool} {fuel : ℕ} :
    ∀ (len t : ℕ) (G : DiGraph) (s : RState), G.nodes = List.range t →
      ∀ Gs ∈ (List.range' t len).foldl (paArrival m ew fuel) (some (G, s)),
        Gs.1.nodes = List.range (t + len) := by
  intro len
  induction len with
  | zero =>
    intro t G s hG Gs hGs
    simp only [List.range', List.foldl_nil, Option.mem_def, Option.some.injEq] at hGs
    subst hGs
    simpa using hG
  | succ len ih =>
    intro t G s hG Gs hGs
    rw [List.range'_succ, List.foldl_cons] at hGs
    rcases harr : paArrival m ew fuel (some (G, s)) t with _ | Gs1
    · rw [harr, foldl_paArrival_none] at hGs; simp at hGs
    · rw [harr] at hGs
      have h1 : Gs1.1.nodes = List.range (t + 1) :=
        paArrival_nodes hG Gs1 (by rw [harr]; rfl)
      have h2 := ih (t + 1) Gs1.1 Gs1.2 h1 Gs (by simpa using hGs)
      rw [h2]
      congr 1
      omega

lemma pa_dynamic_nodes {n m : ℕ} {ew : Bool} {fuel : ℕ} {s : RState} :
    ∀ Gs ∈ pa_dynamic n m ew fuel s, Gs.1.nodes = List.range (max n (m + 1)) := by
  intro Gs hGs
  unfold pa_dynamic at hGs
  have hclique : (cliqueLoop ew (m + 1) ⟨List.range (m + 1), []⟩).nodes
      = List.range (m + 1) := cliqueLoop_nodes (m + 1) _ rfl
  have := @paArrivals_nodes m ew fuel (n - (m + 1)) (m + 1) _ s hclique Gs hGs
  rw [this]
  congr 1
  omega

/-- C4 counterexample: dynamic preferential attachment with
`num_agents = 1` and `edges_per_step = 1` still builds its 2-node seed
clique and finishes with 2 nodes, not `num_agents = 1`. -/
theorem c4_node_count_counterexample :
    ∃ Gs, generate_preferential_attachment_graph 1 true 5 1 false [] 0
        ⟨fun _ => 0, 0⟩ = some Gs ∧ Gs.1.nodeCount = 2 ∧ Gs.1.nodeCount ≠ 1 :=
  ⟨_, rfl, by decide, by decide⟩

/-- C4 amended: the random and homophily generators always finish with
exactly `num_agents` nodes (in both modes); static preferential attachment
finishes with exactly `num_agents` nodes whenever the external
Barabási–Albert base graph is over nodes below `num_agents`; dynamic
preferential attachment finishes with `max num_agents (edges_per_step + 1)`
nodes, which equals `num_agents` exactly when
`num_agents ≥ edges_per_step + 1`. -/
theorem c4_node_count :
    (∀ (n : ℕ) (dyn : Bool) (ts : ℕ) (p : ℚ) (ew : Bool) (s : RState),
        (generate_random_graph n dyn ts p ew s).1.nodeCount = n)
  ∧ (∀ (n : ℕ) (dyn : Bool) (ts g : ℕ) (pin pout : ℚ) (ew : Bool) (s : RState),
        (generate_homophily_graph n dyn ts g pin pout ew s).1.nodeCount = n)
  ∧ (∀ (n ts m : ℕ) (ew : Bool) (ba : List (ℕ × ℕ)) (fuel : ℕ) (s : RState),
        (∀ e ∈ ba, e.1 < n ∧ e.2 < n) →
        ∀ Gs ∈ generate_preferential_attachment_graph n false ts m ew ba fuel s,
          Gs.1.nodeCount = n)
  ∧ (∀ (n ts m : ℕ) (ew : Bool) (ba : List (ℕ × ℕ)) (fuel : ℕ) (s : RState),
        ∀ Gs ∈ generate_preferential_attachment_graph n true ts m ew ba fuel s,
          Gs.1.nodeCount = max n (m + 1)) := by
  refine ⟨?_, ?_, ?_, ?_⟩
  · intro n dyn ts p ew s
    simp [DiGraph.nodeCount, generate_random_graph_nodes]
  · intro n dyn ts g pin pout ew s
    simp [DiGraph.nodeCount, generate_homophily_graph_nodes]
  · intro n ts m ew ba fuel s hba Gs hGs
    simp only [generate_preferential_attachment_graph,
      if_neg (by simp : ¬(false : Bool) = true), Option.mem_def,
      Option.some.injEq] at hGs
    subst hGs
    simp [DiGraph.nodeCount, pa_static_nodes hba]
  · intro n ts m ew ba fuel s Gs hGs
    simp only [generate_preferential_attachment_graph, if_pos rfl] at hGs
    simp [DiGraph.nodeCount, pa_dynamic_nodes Gs hGs]

/-- Witness for C4 (amended) at concrete inputs: a static
preferential-attachment run over base edges `[(0, 1)]` finishes with 3
nodes, and a dynamic run with `num_agents = 4`, `edges_per_step = 1`
finishes with `max 4 2 = 4` nodes. -/
theorem c4_node_count_witness :
    (∀ e ∈ ([(0, 1)] : List (ℕ × ℕ)), e.1 < 3 ∧ e.2 < 3) ∧
    (∀ Gs ∈ generate_preferential_attachment_graph 3 false 0 1 false [(0, 1)] 0
        ⟨fun _ => 0, 0⟩, Gs.1.nodeCount = 3) ∧
    (∀ Gs ∈ generate_preferential_attachment_graph 4 true 0 1 true [] 9
        ⟨fun _ => 0, 0⟩, Gs.1.nodeCount = max 4 2) :=
  ⟨by decide,
   c4_node_count.2.2.1 3 0 1 false [(0, 1)] 0 ⟨fun _ => 0, 0⟩ (by decide),
   c4_node_count.2.2.2 4 0 1 true [] 9 ⟨fun _ => 0, 0⟩⟩

/-! ### Claim C5: no validation of num_agents -/

/-- C5: the source performs no configuration validation.  Handed
`num_agents = -1`, `main` silently runs the default random strategy over
the empty `range(-1)`, returns the empty graph and writes it to
`network.graphml` — no error of any kind is raised, contradicting the
specified fail-closed behavior. -/
theorem c5_negative_num_agents_no_error :
    main { num_agents := some (-1) } [] 0 ⟨fun _ => 0, 0⟩
      = Except.ok (⟨[], []⟩, "network.graphml") := rfl

/-! ### Claim C10: strategy dispatch and unknown-strategy error -/

/-- C10: `main` resolves the strategy from the key `linking_strategy`,
falling back to the key `strategy` when the former is absent and to
`"random"` when both are absent; any resolved value outside
`{random, preferential_attachment, preferential, homophily}` makes `main`
raise the unknown-strategy error, producing no graph and no output
file. -/
theorem c10_strategy_dispatch :
    ∀ (cfg : Config) (ba : List (ℕ × ℕ)) (fuel : ℕ) (s : RState),
      (∀ v, cfg.linking_strategy = some v → resolveStrategy cfg = v)
    ∧ (cfg.linking_strategy = none → ∀ v, cfg.strategy = some v →
        resolveStrategy cfg = v)
    ∧ (cfg.linking_strategy = none → cfg.strategy = none →
        resolveStrategy cfg = "random")
    ∧ (resolveStrategy cfg ∉
        (["random", "preferential_attachment", "preferential", "homophily"] :
          List String) →
        main cfg ba fuel s =
          Except.error ("Unknown linking_strategy: " ++ resolveStrategy cfg)) := by
  intro cfg ba fuel s
  refine ⟨?_, ?_, ?_, ?_⟩
  · intro v hv; simp [resolveStrategy, hv]
  · intro h v hv; simp [resolveStrategy, h, hv]
  · intro h1 h2; simp [resolveStrategy, h1, h2]
  · intro hmem
    simp only [List.mem_cons, List.not_mem_nil, or_false, not_or] at hmem
    obtain ⟨h1, h2, h3, h4⟩ := hmem
    simp only [main]
    rw [if_neg h1, if_neg (not_or.mpr ⟨h2, h3⟩), if_neg h4]

/-- Witness for C10 at a concrete input: the undocumented fallback key
`strategy` set to `"bogus"` resolves to `"bogus"` and makes `main` raise
the unknown-strategy error. -/
theorem c10_strategy_dispatch_witness :
    resolveStrategy { strategy := some "bogus" } = "bogus" ∧
    main { strategy := some "bogus" } [] 0 ⟨fun _ => 0, 0⟩
      = Except.error ("Unknown linking_strategy: " ++ "bogus") := by
  refine ⟨(c10_strategy_dispatch { strategy := some "bogus" } [] 0
      ⟨fun _ => 0, 0⟩).2.1 rfl "bogus" rfl, ?_⟩
  have h := (c10_strategy_dispatch { strategy := some "bogus" } [] 0
      ⟨fun _ => 0, 0⟩).2.2.2 (by decide)
  simpa using h

/-! ### Claim C6: edges_added counts exactly the newly created edges -/

lemma isSome_lookupW_mapW {l : List ((ℕ × ℕ) × Option ℚ)} {k : ℕ × ℕ}
    {g : Option ℚ → Option ℚ} {e : ℕ × ℕ} (h : (lookupW l e).isSome) :
    (lookupW (mapW l k g) e).isSome := by
  rw [lookupW_mapW]
  split_ifs with hk
  · simpa using h
  · exact h

lemma isSome_lookupW_setW {l : List ((ℕ × ℕ) × Option ℚ)} {k : ℕ × ℕ}
    {w : Option ℚ} {e : ℕ × ℕ} (h : (lookupW l e).isSome) :
    (lookupW (setW l k w) e).isSome := by
  rw [lookupW_setW]
  split_ifs with hk
  · rfl
  · exact h

lemma not_hasEdge_lookup_none {G : DiGraph} {u v : ℕ}
    (h : ¬ G.hasEdge u v = true) : lookupW G.edges (u, v) = none := by
  simpa [DiGraph.hasEdge, Option.not_isSome_iff_eq_none] using h

lemma randTrialDyn_count {n : ℕ} {p : ℚ} {ew : Bool} :
    ∀ (G : DiGraph) (c : ℕ) (s : RState) (i : ℕ),
      (randTrialDyn n p ew (G, c, s) i).1.edges.length + c
        = G.edges.length + (randTrialDyn n p ew (G, c, s) i).2.1
    ∧ (∀ e, (lookupW G.edges e).isSome →
        (lookupW (randTrialDyn n p ew (G, c, s) i).1.edges e).isSome) := by
  intro G c s i
  simp only [randTrialDyn, RState.draw, RState.randrange]
  split_ifs with h1 h2 h3 h4 h5
  · exact ⟨rfl, fun e h => h⟩
  · refine ⟨?_, fun e h => isSome_lookupW_mapW h⟩
    simp [DiGraph.incWeight, length_mapW]
  · exact ⟨rfl, fun e h => h⟩
  · refine ⟨?_, fun e h => isSome_lookupW_setW h⟩
    simp only [DiGraph.addEdge]
    rw [length_setW_absent _ _ (not_hasEdge_lookup_none h3)]
    omega
  · refine ⟨?_, fun e h => isSome_lookupW_setW h⟩
    simp only [DiGraph.addEdge]
    rw [length_setW_absent _ _ (not_hasEdge_lookup_none h3)]
    omega
  · exact ⟨rfl, fun e h => h⟩

lemma homTrialDyn_count {n g : ℕ} {pin pout : ℚ} {ew : Bool} :
    ∀ (G : DiGraph) (c : ℕ) (s : RState) (i : ℕ),
      (homTrialDyn n g pin pout ew (G, c, s) i).1.edges.length + c
        = G.edges.length + (homTrialDyn n g pin pout ew (G, c, s) i).2.1
    ∧ (∀ e, (lookupW G.edges e).isSome →
        (lookupW (homTrialDyn n g pin pout ew (G, c, s) i).1.edges e).isSome) := by
  intro G c s i
  simp only [homTrialDyn, RState.draw, RState.randrange]
  split_ifs with h1 h2 h3 h4 h5 h6 h7 h8 h9 h10
  · exact ⟨rfl, fun e h => h⟩
  · refine ⟨?_, fun e h => isSome_lookupW_mapW h⟩
    simp [DiGraph.incWeight, length_mapW]
  · exact ⟨rfl, fun e h => h⟩
  · refine ⟨?_, fun e h => isSome_lookupW_setW h⟩
    simp only [DiGraph.addEdge]
    rw [length_setW_absent _ _ (not_hasEdge_lookup_none h4)]
    omega
  · refine ⟨?_, fun e h => isSome_lookupW_setW h⟩
    simp only [DiGraph.addEdge]
    rw [length_setW_absent _ _ (not_hasEdge_lookup_none h4)]
    omega
  · exact ⟨rfl, fun e h => h⟩
  · refine ⟨?_, fun e h => isSome_lookupW_mapW h⟩
    simp [DiGraph.incWeight, length_mapW]
  · exact ⟨rfl, fun e h => h⟩
  · refine ⟨?_, fun e h => isSome_lookupW_setW h⟩
    simp only [DiGraph.addEdge]
    rw [length_setW_absent _ _ (not_hasEdge_lookup_none h8)]
    omega
  · refine ⟨?_, fun e h => isSome_lookupW_setW h⟩
    simp only [DiGraph.addEdge]
    rw [length_setW_absent _ _ (not_hasEdge_lookup_none h8)]
    omega
  · exact ⟨rfl, fun e h => h⟩

/-- C6: in every dynamic step of the random and homophily generators the
reported `edges_added` count equals the number of edges newly created
during that step: the step's final edge count is the starting edge count
plus `edges_added`, and no starting edge is ever removed (selections that
hit an existing edge — weight increments included — are not counted). -/
theorem c6_edges_added_counts_new_edges :
    (∀ (n : ℕ) (p : ℚ) (ew : Bool) (G : DiGraph) (s : RState),
        (randStepDyn n p ew G s).1.edgeCount
          = G.edgeCount + (randStepDyn n p ew G s).2.1
      ∧ ∀ e, (lookupW G.edges e).isSome →
          (lookupW (randStepDyn n p ew G s).1.edges e).isSome)
  ∧ (∀ (n g : ℕ) (pin pout : ℚ) (ew : Bool) (G : DiGraph) (s : RState),
        (homStepDyn n g pin pout ew G s).1.edgeCount
          = G.edgeCount + (homStepDyn n g pin pout ew G s).2.1
      ∧ ∀ e, (lookupW G.edges e).isSome →
          (lookupW (homStepDyn n g pin pout ew G s).1.edges e).isSome) := by
  constructor
  · intro n p ew G s
    have h := foldl_pres (fun acc : DiGraph × ℕ × RState =>
        acc.1.edges.length = G.edges.length + acc.2.1
      ∧ ∀ e, (lookupW G.edges e).isSome → (lookupW acc.1.edges e).isSome)
      (randTrialDyn n p ew) (List.range n)
      (fun acc a _ hacc => by
        rcases acc with ⟨G1, c1, s1⟩
        obtain ⟨hlen, hkeys⟩ := @randTrialDyn_count n p ew G1 c1 s1 a
        have h1 : G1.edges.length = G.edges.length + c1 := hacc.1
        exact ⟨by omega, fun e he => hkeys e (hacc.2 e he)⟩)
      (G, 0, s) ⟨by simp, fun e h => h⟩
    exact ⟨h.1, h.2⟩
  · intro n g pin pout ew G s
    have h := foldl_pres (fun acc : DiGraph × ℕ × RState =>
        acc.1.edges.length = G.edges.length + acc.2.1
      ∧ ∀ e, (lookupW G.edges e).isSome → (lookupW acc.1.edges e).isSome)
      (homTrialDyn n g pin pout ew) (List.range n)
      (fun acc a _ hacc => by
        rcases acc with ⟨G1, c1, s1⟩
        obtain ⟨hlen, hkeys⟩ := @homTrialDyn_count n g pin pout ew G1 c1 s1 a
        have h1 : G1.edges.length = G.edges.length + c1 := hacc.1
        exact ⟨by omega, fun e he => hkeys e (hacc.2 e he)⟩)
      (G, 0, s) ⟨by simp, fun e h => h⟩
    exact ⟨h.1, h.2⟩

/-- Witness for C6 at a concrete input: one dynamic random step over a
2-node graph that already holds the edge `(0, 1)`, with the constant-zero
stream. -/
theorem c6_edges_added_witness :
    ((randStepDyn 2 1 false ⟨[0, 1], [((0, 1), none)]⟩ ⟨fun _ => 0, 0⟩).1.edgeCount
      = (⟨[0, 1], [((0, 1), none)]⟩ : DiGraph).edgeCount
        + (randStepDyn 2 1 false ⟨[0, 1], [((0, 1), none)]⟩ ⟨fun _ => 0, 0⟩).2.1)
    ∧ (lookupW (randStepDyn 2 1 false ⟨[0, 1], [((0, 1), none)]⟩
        ⟨fun _ => 0, 0⟩).1.edges (0, 1)).isSome :=
  ⟨(c6_edges_added_counts_new_edges.1 2 1 false ⟨[0, 1], [((0, 1), none)]⟩
      ⟨fun _ => 0, 0⟩).1,
   (c6_edges_added_counts_new_edges.1 2 1 false ⟨[0, 1], [((0, 1), none)]⟩
      ⟨fun _ => 0, 0⟩).2 (0, 1) (by decide)⟩

/-! ### Claim C7: weight accrual under re-selection (dynamic weighted) -/

/-- Whether the dynamic random trial for node `i`, run from graph `G`
and random state `s`, re-selects the already-existing edge `e` (the
Bernoulli draw is below `p`, the drawn target differs from `i`, the drawn
pair is already an edge, and that pair is `e`). -/
def reselRandTrial (n : ℕ) (p : ℚ) (G : DiGraph) (s : RState) (i : ℕ)
    (e : ℕ × ℕ) : Bool :=
  let (r, s) := s.draw
  if r < p then
    let (j, _) := s.randrange n
    if j = i then false
    else if G.hasEdge i j then decide ((i, j) = e) else false
  else false

/-- Number of re-selections of the edge `e` over a list of dynamic random
trials, replaying the trial dynamics. -/
def countReselRand (n : ℕ) (p : ℚ) (ew : Bool) (e : ℕ × ℕ) :
    List ℕ → DiGraph × ℕ × RState → ℕ
  | [], _ => 0
  | i :: rest, acc =>
    (if reselRandTrial n p acc.1 acc.2.2 i e then 1 else 0)
      + countReselRand n p ew e rest (randTrialDyn n p ew acc i)

/-- Number of re-selections of the edge `e` over a whole dynamic random
run of `ts` time steps. -/
def countReselRandRun (n : ℕ) (p : ℚ) (ew : Bool) (e : ℕ × ℕ) :
    ℕ → DiGraph × RState → ℕ
  | 0, _ => 0
  | ts + 1, Gs =>
    countReselRand n p ew e (List.range n) (Gs.1, 0, Gs.2)
      + countReselRandRun n p ew e ts
          ((randStepDyn n p ew Gs.1 Gs.2).1, (randStepDyn n p ew Gs.1 Gs.2).2.2)

lemma ratFloor_zero : Rat.floor (0 : ℚ) = 0 := rfl

lemma randTrialDyn_weight (n : ℕ) (p : ℚ) (e : ℕ × ℕ) :
    ∀ (G : DiGraph) (c : ℕ) (s : RState) (i : ℕ) (w : ℚ),
      lookupW G.edges e = some (some w) →
      lookupW (randTrialDyn n p true (G, c, s) i).1.edges e
        = some (some (w + (if reselRandTrial n p G s i e then (1 : ℚ) else 0))) := by
  intro G c s i w hw
  simp only [randTrialDyn, reselRandTrial, RState.draw, RState.randrange]
  by_cases h1 : s.f s.i < p
  · simp only [if_pos h1]
    by_cases h2 : (Rat.floor (s.f (s.i + 1) * (n : ℚ))).toNat % n = i
    · simp only [if_pos h2]
      simp [hw]
    · simp only [if_neg h2]
      by_cases h3 : G.hasEdge i ((Rat.floor (s.f (s.i + 1) * (n : ℚ))).toNat % n) = true
      · simp only [if_pos h3]
        by_cases hij :
            ((i, (Rat.floor (s.f (s.i + 1) * (n : ℚ))).toNat % n) : ℕ × ℕ) = e
        · subst hij
          simp [DiGraph.incWeight, lookupW_mapW, hw]
        · simp [DiGraph.incWeight, lookupW_mapW, hij, hw]
      · simp only [if_neg h3]
        have hij : ((i, (Rat.floor (s.f (s.i + 1) * (n : ℚ))).toNat % n) : ℕ × ℕ) ≠ e := by
          intro hcontra
          rw [← hcontra] at hw
          rw [not_hasEdge_lookup_none h3] at hw
          exact Option.noConfusion hw
        simp [DiGraph.addEdge, lookupW_setW, hij, hw]
  · simp only [if_neg h1]
    simp [hw]

lemma randTrials_weight (n : ℕ) (p : ℚ) (e : ℕ × ℕ) :
    ∀ (l : List ℕ) (acc : DiGraph × ℕ × RState) (w : ℚ),
      lookupW acc.1.edges e = some (some w) →
      lookupW ((l.foldl (randTrialDyn n p true) acc).1.edges) e
        = some (some (w + (countReselRand n p true e l acc : ℚ))) := by
  intro l
  induction l with
  | nil =>
    intro acc w hw
    simpa [countReselRand] using hw
  | cons i rest ih =>
    rintro ⟨G, c, s⟩ w hw
    rw [List.foldl_cons]
    have h1 := randTrialDyn_weight n p e G c s i w hw
    have h2 := ih (randTrialDyn n p true (G, c, s) i) _ h1
    rw [h2]
    simp only [countReselRand]
    congr 2
    by_cases hres : reselRandTrial n p G s i e
    · simp [hres]; push_cast; ring
    · simp [hres]

lemma randRun_weight (n : ℕ) (p : ℚ) (e : ℕ × ℕ) :
    ∀ (ts : ℕ) (Gs : DiGraph × RState) (w : ℚ),
      lookupW Gs.1.edges e = some (some w) →
      lookupW ((randDynLoop n p true ts Gs).1.edges) e
        = some (some (w + (countReselRandRun n p true e ts Gs : ℚ))) := by
  intro ts
  induction ts with
  | zero =>
    intro Gs w hw
    simpa [randDynLoop, countReselRandRun] using hw
  | succ t ih =>
    intro Gs w hw
    have hstep := randTrials_weight n p e (List.range n) (Gs.1, 0, Gs.2) w hw
    have hrest := ih ((randStepDyn n p true Gs.1 Gs.2).1,
      (randStepDyn n p true Gs.1 Gs.2).2.2) _ hstep
    simp only [randDynLoop, randStepDyn] at hrest ⊢
    rw [hrest]
    simp only [countReselRandRun, randStepDyn]
    congr 2
    push_cast
    ring

lemma randTrialDyn_creates_weight {n : ℕ} {p : ℚ} {ew : Bool} :
    ∀ (G : DiGraph) (c : ℕ) (s : RState) (i : ℕ) (e : ℕ × ℕ) (ow : Option ℚ),
      lookupW G.edges e = none →
      lookupW (randTrialDyn n p ew (G, c, s) i).1.edges e = some ow →
      ow = (if ew then some 1 else none) := by
  intro G c s i e ow hnone hsome
  simp only [randTrialDyn, RState.draw, RState.randrange] at hsome
  split_ifs at hsome with h1 h2 h3 h4 h5
  · rw [hnone] at hsome; exact Option.noConfusion hsome
  · simp only [DiGraph.incWeight, lookupW_mapW] at hsome
    split_ifs at hsome with hij
    · rw [hnone] at hsome; simp at hsome
    · rw [hnone] at hsome; exact Option.noConfusion hsome
  · rw [hnone] at hsome; exact Option.noConfusion hsome
  · simp only [DiGraph.addEdge, lookupW_setW] at hsome
    split_ifs at hsome with hij
    · simp only [Option.some.injEq] at hsome
      simp [← hsome, h5]
    · rw [hnone] at hsome; exact Option.noConfusion hsome
  · simp only [DiGraph.addEdge, lookupW_setW] at hsome
    split_ifs at hsome with hij
    · simp only [Option.some.injEq] at hsome
      simp [← hsome, h5]
    · rw [hnone] at hsome; exact Option.noConfusion hsome
  · rw [hnone] at hsome; exact Option.noConfusion hsome

/-- Whether the dynamic homophily trial for node `i`, run from graph `G`
and random state `s`, re-selects the already-existing edge `e`. -/
def reselHomTrial (n g : ℕ) (pin pout : ℚ) (G : DiGraph) (s : RState) (i : ℕ)
    (e : ℕ × ℕ) : Bool :=
  let (j, s) := s.randrange n
  if j = i then false
  else if group g i = group g j then
    let (r, _) := s.draw
    if r < pin then
      (if G.hasEdge i j then decide ((i, j) = e) else false)
    else false
  else
    let (r, _) := s.draw
    if r < pout then
      (if G.hasEdge i j then decide ((i, j) = e) else false)
    else false

/-- Number of re-selections of the edge `e` over a list of dynamic
homophily trials, replaying the trial dynamics. -/
def countReselHom (n g : ℕ) (pin pout : ℚ) (ew : Bool) (e : ℕ × ℕ) :
    List ℕ → DiGraph × ℕ × RState → ℕ
  | [], _ => 0
  | i :: rest, acc =>
    (if reselHomTrial n g pin pout acc.1 acc.2.2 i e then 1 else 0)
      + countReselHom n g pin pout ew e rest (homTrialDyn n g pin pout ew acc i)

/-- Number of re-selections of the edge `e` over a whole dynamic homophily
run of `ts` time steps. -/
def countReselHomRun (n g : ℕ) (pin pout : ℚ) (ew : Bool) (e : ℕ × ℕ) :
    ℕ → DiGraph × RState → ℕ
  | 0, _ => 0
  | ts + 1, Gs =>
    countReselHom n g pin pout ew e (List.range n) (Gs.1, 0, Gs.2)
      + countReselHomRun n g pin pout ew e ts
          ((homStepDyn n g pin pout ew Gs.1 Gs.2).1,
           (homStepDyn n g pin pout ew Gs.1 Gs.2).2.2)

lemma homTrialDyn_weight (n g : ℕ) (pin pout : ℚ) (e : ℕ × ℕ) :
    ∀ (G : DiGraph) (c : ℕ) (s : RState) (i : ℕ) (w : ℚ),
      lookupW G.edges e = some (some w) →
      lookupW (homTrialDyn n g pin pout true (G, c, s) i).1.edges e
        = some (some (w
            + (if reselHomTrial n g pin pout G s i e then (1 : ℚ) else 0))) := by
  intro G c s i w hw
  simp only [homTrialDyn, reselHomTrial, RState.draw, RState.randrange]
  have hedge : ∀ (hcase : Prop) [Decidable hcase],
      lookupW
        (if G.hasEdge i ((Rat.floor (s.f s.i * (n : ℚ))).toNat % n) = true then
          (G.incWeight i ((Rat.floor (s.f s.i * (n : ℚ))).toNat % n), c,
            (⟨s.f, s.i + 1 + 1⟩ : RState))
        else
          (G.addEdge i ((Rat.floor (s.f s.i * (n : ℚ))).toNat % n) (some 1), c + 1,
            (⟨s.f, s.i + 1 + 1⟩ : RState))).1.edges e
      = some (some (w
          + (if (if G.hasEdge i ((Rat.floor (s.f s.i * (n : ℚ))).toNat % n) = true then
                decide ((i, (Rat.floor (s.f s.i * (n : ℚ))).toNat % n) = e)
              else false) = true then (1 : ℚ) else 0))) := by
    intro hcase _
    by_cases h3 : G.hasEdge i ((Rat.floor (s.f s.i * (n : ℚ))).toNat % n) = true
    · simp only [if_pos h3]
      by_cases hij : ((i, (Rat.floor (s.f s.i * (n : ℚ))).toNat % n) : ℕ × ℕ) = e
      · subst hij
        simp [DiGraph.incWeight, lookupW_mapW, hw]
      · simp [DiGraph.incWeight, lookupW_mapW, hij, hw]
    · simp only [if_neg h3]
      have hij : ((i, (Rat.floor (s.f s.i * (n : ℚ))).toNat % n) : ℕ × ℕ) ≠ e := by
        intro hcontra
        rw [← hcontra] at hw
        rw [not_hasEdge_lookup_none h3] at hw
        exact Option.noConfusion hw
      simp [DiGraph.addEdge, lookupW_setW, hij, hw]
  by_cases h1 : (Rat.floor (s.f s.i * (n : ℚ))).toNat % n = i
  · simp only [if_pos h1]
    simp [hw]
  · simp only [if_neg h1]
    by_cases h2 : group g i = group g ((Rat.floor (s.f s.i * (n : ℚ))).toNat % n)
    · simp only [if_pos h2]
      by_cases hr : s.f (s.i + 1) < pin
      · simp only [if_pos hr]
        exact hedge True
      · simp only [if_neg hr]
        simp [hw]
    · simp only [if_neg h2]
      by_cases hr : s.f (s.i + 1) < pout
      · simp only [if_pos hr]
        exact hedge True
      · simp only [if_neg hr]
        simp [hw]

lemma homTrials_weight (n g : ℕ) (pin pout : ℚ) (e : ℕ × ℕ) :
    ∀ (l : List ℕ) (acc : DiGraph × ℕ × RState) (w : ℚ),
      lookupW acc.1.edges e = some (some w) →
      lookupW ((l.foldl (homTrialDyn n g pin pout true) acc).1.edges) e
        = some (some (w + (countReselHom n g pin pout true e l acc : ℚ))) := by
  intro l
  induction l with
  | nil =>
    intro acc w hw
    simpa [countReselHom] using hw
  | cons i rest ih =>
    rintro ⟨G, c, s⟩ w hw
    rw [List.foldl_cons]
    have h1 := homTrialDyn_weight n g pin pout e G c s i w hw
    have h2 := ih (homTrialDyn n g pin pout true (G, c, s) i) _ h1
    rw [h2]
    simp only [countReselHom]
    congr 2
    by_cases hres : reselHomTrial n g pin pout G s i e
    · simp [hres]; push_cast; ring
    · simp [hres]

lemma homRun_weight (n g : ℕ) (pin pout : ℚ) (e : ℕ × ℕ) :
    ∀ (ts : ℕ) (Gs : DiGraph × RState) (w : ℚ),
      lookupW Gs.1.edges e = some (some w) →
      lookupW ((homDynLoop n g pin pout true ts Gs).1.edges) e
        = some (some (w + (countReselHomRun n g pin pout true e ts Gs : ℚ))) := by
  intro ts
  induction ts with
  | zero =>
    intro Gs w hw
    simpa [homDynLoop, countReselHomRun] using hw
  | succ t ih =>
    intro Gs w hw
    have hstep := homTrials_weight n g pin pout e (List.range n) (Gs.1, 0, Gs.2) w hw
    have hrest := ih ((homStepDyn n g pin pout true Gs.1 Gs.2).1,
      (homStepDyn n g pin pout true Gs.1 Gs.2).2.2) _ hstep
    simp only [homDynLoop, homStepDyn] at hrest ⊢
    rw [hrest]
    simp only [countReselHomRun, homStepDyn]
    congr 2
    push_cast
    ring

lemma homTrialDyn_creates_weight {n g : ℕ} {pin pout : ℚ} {ew : Bool} :
    ∀ (G : DiGraph) (c : ℕ) (s : RState) (i : ℕ) (e : ℕ × ℕ) (ow : Option ℚ),
      lookupW G.edges e = none →
      lookupW (homTrialDyn n g pin pout ew (G, c, s) i).1.edges e = some ow →
      ow = (if ew then some 1 else none) := by
  intro G c s i e ow hnone hsome
  simp only [homTrialDyn, RState.draw, RState.randrange] at hsome
  split_ifs at hsome with h1 h2 h3 h4 h5 h6 h7 h8 h9 h10
  · rw [hnone] at hsome; exact Option.noConfusion hsome
  · simp only [DiGraph.incWeight, lookupW_mapW] at hsome
    split_ifs at hsome with hij
    · rw [hnone] at hsome; simp at hsome
    · rw [hnone] at hsome; exact Option.noConfusion hsome
  · rw [hnone] at hsome; exact Option.noConfusion hsome
  · simp only [DiGraph.addEdge, lookupW_setW] at hsome
    split_ifs at hsome with hij
    · simp only [Option.some.injEq] at hsome
      simp [← hsome, h6]
    · rw [hnone] at hsome; exact Option.noConfusion hsome
  · simp only [DiGraph.addEdge, lookupW_setW] at hsome
    split_ifs at hsome with hij
    · simp only [Option.some.injEq] at hsome
      simp [← hsome, h6]
    · rw [hnone] at hsome; exact Option.noConfusion hsome
  · rw [hnone] at hsome; exact Option.noConfusion hsome
  · simp only [DiGraph.incWeight, lookupW_mapW] at hsome
    split_ifs at hsome with hij
    · rw [hnone] at hsome; simp at hsome
    · rw [hnone] at hsome; exact Option.noConfusion hsome
  · rw [hnone] at hsome; exact Option.noConfusion hsome
  · simp only [DiGraph.addEdge, lookupW_setW] at hsome
    split_ifs at hsome with hij
    · simp only [Option.some.injEq] at hsome
      simp [← hsome, h10]
    · rw [hnone] at hsome; exact Option.noConfusion hsome
  · simp only [DiGraph.addEdge, lookupW_setW] at hsome
    split_ifs at hsome with hij
    · simp only [Option.some.injEq] at hsome
      simp [← hsome, h10]
    · rw [hnone] at hsome; exact Option.noConfusion hsome
  · rw [hnone] at hsome; exact Option.noConfusion hsome

/-- C7: in dynamic weighted mode (random and homophily) every
re-selection of an already-existing edge increments that edge's weight by
exactly 1: starting from any state in which edge `e` carries weight `w`,
after any number of further steps the edge carries
`w + (number of re-selections of e)`, so its weight is non-decreasing over
the run; and an edge created during a trial starts at weight exactly 1. -/
theorem c7_weight_accrual :
    (∀ (n : ℕ) (p : ℚ) (e : ℕ × ℕ) (ts : ℕ) (Gs : DiGraph × RState) (w : ℚ),
        lookupW Gs.1.edges e = some (some w) →
          lookupW ((randDynLoop n p true ts Gs).1.edges) e
            = some (some (w + (countReselRandRun n p true e ts Gs : ℚ)))
        ∧ w ≤ w + (countReselRandRun n p true e ts Gs : ℚ))
  ∧ (∀ (n : ℕ) (p : ℚ) (G : DiGraph) (c : ℕ) (s : RState) (i : ℕ) (e : ℕ × ℕ)
        (ow : Option ℚ), lookupW G.edges e = none →
        lookupW (randTrialDyn n p true (G, c, s) i).1.edges e = some ow →
        ow = some 1)
  ∧ (∀ (n g : ℕ) (pin pout : ℚ) (e : ℕ × ℕ) (ts : ℕ) (Gs : DiGraph × RState)
        (w : ℚ), lookupW Gs.1.edges e = some (some w) →
          lookupW ((homDynLoop n g pin pout true ts Gs).1.edges) e
            = some (some (w + (countReselHomRun n g pin pout true e ts Gs : ℚ)))
        ∧ w ≤ w + (countReselHomRun n g pin pout true e ts Gs : ℚ))
  ∧ (∀ (n g : ℕ) (pin pout : ℚ) (G : DiGraph) (c : ℕ) (s : RState) (i : ℕ)
        (e : ℕ × ℕ) (ow : Option ℚ), lookupW G.edges e = none →
        lookupW (homTrialDyn n g pin pout true (G, c, s) i).1.edges e = some ow →
        ow = some 1) := by
  refine ⟨?_, ?_, ?_, ?_⟩
  · intro n p e ts Gs w hw
    exact ⟨randRun_weight n p e ts Gs w hw,
      le_add_of_nonneg_right (by positivity)⟩
  · intro n p G c s i e ow hnone hsome
    simpa using randTrialDyn_creates_weight G c s i e ow hnone hsome
  · intro n g pin pout e ts Gs w hw
    exact ⟨homRun_weight n g pin pout e ts Gs w hw,
      le_add_of_nonneg_right (by positivity)⟩
  · intro n g pin pout G c s i e ow hnone hsome
    simpa using homTrialDyn_creates_weight G c s i e ow hnone hsome

/-- Witness for C7 at concrete inputs: one dynamic random step and one
dynamic homophily step over a 2-node graph already holding edge `(1, 0)`
at weight 1, with the constant-zero stream (the step re-selects the edge
once, raising its weight to 2), plus one homophily trial that creates a
fresh edge at weight exactly 1. -/
theorem c7_weight_accrual_witness :
    (lookupW ((randDynLoop 2 1 true 1
          (⟨[0, 1], [((1, 0), some 1)]⟩, ⟨fun _ => 0, 0⟩)).1.edges) (1, 0)
        = some (some ((1 : ℚ) + (countReselRandRun 2 1 true (1, 0) 1
            (⟨[0, 1], [((1, 0), some 1)]⟩, ⟨fun _ => 0, 0⟩) : ℚ)))
      ∧ (1 : ℚ) ≤ 1 + (countReselRandRun 2 1 true (1, 0) 1
          (⟨[0, 1], [((1, 0), some 1)]⟩, ⟨fun _ => 0, 0⟩) : ℚ))
    ∧ (lookupW ((homDynLoop 2 1 1 1 true 1
          (⟨[0, 1], [((1, 0), some 1)]⟩, ⟨fun _ => 0, 0⟩)).1.edges) (1, 0)
        = some (some ((1 : ℚ) + (countReselHomRun 2 1 1 1 true (1, 0) 1
            (⟨[0, 1], [((1, 0), some 1)]⟩, ⟨fun _ => 0, 0⟩) : ℚ))))
    ∧ (some (1 : ℚ) : Option ℚ) = some 1 :=
  ⟨c7_weight_accrual.1 2 1 (1, 0) 1 (⟨[0, 1], [((1, 0), some 1)]⟩, ⟨fun _ => 0, 0⟩)
      1 (by decide),
   (c7_weight_accrual.2.2.1 2 1 1 1 (1, 0) 1
      (⟨[0, 1], [((1, 0), some 1)]⟩, ⟨fun _ => 0, 0⟩) 1 (by decide)).1,
   c7_weight_accrual.2.2.2 2 2 1 1 ⟨[0, 1], []⟩ 0 ⟨fun _ => 0, 0⟩ 1 (1, 0)
      (some 1) (by decide) (by
        simp [homTrialDyn, RState.randrange, RState.draw, DiGraph.hasEdge,
          DiGraph.addEdge, lookupW, setW, group, insertNode, ratFloor_zero])⟩

/-! ### Claim C8: homophily calibration in static mode -/

/-- C8: in static homophily mode with groups `group(i) = i mod
homophily_groups` (and a positive group count, as Python requires for
`%`): with `p_out = 0` every edge of the produced graph connects two
nodes of the same group, for any `p_in`; and with `p_in = 0` every edge
connects two nodes of different groups, for any `p_out`.  Holds for every
valid random stream and both weight settings. -/
theorem c8_homophily_calibration :
    ∀ (n ts g : ℕ) (pin pout : ℚ) (ew : Bool) (s : RState),
      ValidStream s.f → 0 < g →
      (∀ e ∈ (generate_homophily_graph n false ts g pin 0 ew s).1.edges,
          group g e.1.1 = group g e.1.2)
    ∧ (∀ e ∈ (generate_homophily_graph n false ts g 0 pout ew s).1.edges,
          group g e.1.1 ≠ group g e.1.2) := by
  intro n ts g pin pout ew s hv hg
  constructor
  · exact generate_homophily_graph_static_inv
      (Q := fun ep _ => group g ep.1 = group g ep.2)
      (fun u v k1 k2 _ hgr _ => hgr)
      (fun u v k1 k2 _ _ hlt => absurd hlt (not_lt.mpr (hv k1).1))
  · exact generate_homophily_graph_static_inv
      (Q := fun ep _ => group g ep.1 ≠ group g ep.2)
      (fun u v k1 k2 _ _ hlt => absurd hlt (not_lt.mpr (hv k1).1))
      (fun u v k1 k2 _ hgr _ => hgr)

/-- Witness for C8 at a concrete input: 4 nodes, 2 groups, `p_in = 1/2`,
`p_out = 0` (and the flipped setting), with a valid stream alternating
1/4 and 1/2. -/
theorem c8_homophily_calibration_witness :
    (∀ e ∈ (generate_homophily_graph 4 false 1 2 (1 / 2) 0 false
        ⟨fun k => if k % 2 = 0 then 1 / 4 else 1 / 2, 0⟩).1.edges,
        group 2 e.1.1 = group 2 e.1.2)
    ∧ (∀ e ∈ (generate_homophily_graph 4 false 1 2 0 (1 / 2) false
        ⟨fun k => if k % 2 = 0 then 1 / 4 else 1 / 2, 0⟩).1.edges,
        group 2 e.1.1 ≠ group 2 e.1.2) :=
  c8_homophily_calibration 4 1 2 (1 / 2) (1 / 2) false
    ⟨fun k => if k % 2 = 0 then 1 / 4 else 1 / 2, 0⟩
    (fun k => by by_cases h : k % 2 = 0 <;> simp [h] <;> norm_num)
    (by norm_num)

end NetworkAgents
